import Mathlib

/-!
Verification of `gitchangelog.py`, a changelog generator that walks a git
repository's history, classifies commit subjects by regular-expression rules
and renders a ReST document.

Python strings are modelled as lists of characters (`PStr`).  External
libraries (`re`, `datetime`, the `git` executable) are modelled at their
interface: regular-expression matching is an abstract boolean function
supplied to the functions that use it, and the repository is a linear list
of commits from which `git rev-list` output is computed.  Python's
`textwrap` module (2.7 semantics, default `TextWrapper` options) is modelled
concretely because the wrapping claims depend on its behaviour.
-/

/-- Python strings as character lists. -/
abbrev PStr := List Char

/-- Python `str` whitespace characters (`string.whitespace`). -/
def isWS (c : Char) : Bool :=
  c = ' ' || c = '\t' || c = '\n' || c = '\x0b' || c = '\x0c' || c = '\r'

/-- Accumulator worker for `pysplit`. -/
def pysplitAux (sep : Char) : PStr → PStr → List PStr
  | [], cur => [cur.reverse]
  | c :: cs, cur =>
    if c = sep then cur.reverse :: pysplitAux sep cs []
    else pysplitAux sep cs (c :: cur)

/-- Python `text.split(sep)` for a one-character separator. -/
def pysplit (sep : Char) (s : PStr) : List PStr := pysplitAux sep s []

/-- Python `sep.join(pieces)` for a one-character separator. -/
def joinLines (sep : Char) : List PStr → PStr
  | [] => []
  | [l] => l
  | l :: ls => l ++ sep :: joinLines sep ls

/-- Python `s.strip()`: remove leading and trailing whitespace. -/
def pstrip (s : PStr) : PStr :=
  ((s.dropWhile isWS).reverse.dropWhile isWS).reverse

/-- Decides whether `w` occurs as a contiguous substring of `s`. -/
def occursIn (w : PStr) : PStr → Bool
  | [] => decide (w = [])
  | c :: cs => decide (w <+: c :: cs) || occursIn w cs

/-- Python `ucfirst` (gitchangelog lines 145-146): upper-case the first
character.  Python raises `IndexError` on an empty string; the model returns
the empty string there (claim C10 is that the pipeline never reaches that case). -/
def ucfirst (msg : PStr) : PStr :=
  match msg with
  | [] => []
  | c :: cs => c.toUpper :: cs

/-- Python `final_dot` (gitchangelog lines 149-154). -/
def final_dot (msg : PStr) : PStr :=
  if msg.length = 0 then ("No commit message.").data
  else if (msg.getLastD ' ').isAlphanum then msg ++ ['.']
  else msg

/-- Prefix every line of `text` with `chars`: the `first`-less branch of
Python `indent`. -/
def indentChars (chars text : PStr) : PStr :=
  joinLines '\n' ((pysplit '\n' text).map (fun line => chars ++ line))

/-- Python `indent(text, chars="  ", first=None)` (gitchangelog lines 157-179).
When `first` is truthy the first line gets `first` and the remaining text is
re-indented with `chars`; `first=None` and `first=""` both take the plain
branch, matching Python truthiness. -/
def indent (text : PStr) (chars : PStr) (first : Option PStr) : PStr :=
  match first with
  | some f =>
    if f = [] then indentChars chars text
    else
      f ++ (pysplit '\n' text).headD [] ++
        '\n' :: indentChars chars (joinLines '\n' (pysplit '\n' text).tail)
  | none => indentChars chars text

/-- Remove `p` from the front of `l` when it is a prefix, else leave `l`
unchanged (the stripping step of the round-trip in claim C9). -/
def stripPrefixP (p l : PStr) : PStr := if p <+: l then l.drop p.length else l

/-- Strip the prefix `p` from the start of every line of `s`. -/
def rmPrefixLines (p s : PStr) : PStr :=
  joinLines '\n' ((pysplit '\n' s).map (stripPrefixP p))

/-- Drop one trailing newline, as `if out.endswith('\n'): out = out[:-1]`. -/
def chomp (s : PStr) : PStr := if s.getLastD ' ' = '\n' then s.dropLast else s

/-- Decimal rendering of an integer, for the `%d` conversion. -/
def intToPStr (n : Int) : PStr := (toString n).data

/-- Python `wrap` (gitchangelog lines 215-247).  The spawned subprocess is
modelled by its observed `(stdout, stderr, errlvl)` triple; the function
returns the captured stdout, or a `ShellError` message built exactly as in the
source when the exit code is not in `ignore_errlvls`. -/
def wrap (command out err : PStr) (errlvl : Int) (ignore_errlvls : List Int) :
    Except PStr PStr :=
  if errlvl ∉ ignore_errlvls then
    let fmt :=
      (if out ≠ [] then [("stdout:\n").data ++ indent (chomp out) (("| ").data) none] else []) ++
      (if err ≠ [] then [("stderr:\n").data ++ indent (chomp err) (("| ").data) none] else [])
    let formatted := joinLines '\n' fmt
    .error (("Wrapped command '").data ++ command ++ ("' exited with errorlevel ").data ++
      intToPStr errlvl ++ '.' :: '\n' :: indent formatted (("  ").data) none)
  else .ok out

/-- Python `first_matching` (gitchangelog lines 424-430): the label of the
first section rule whose pattern list is `None` (catch-all) or contains a
pattern matching the string; falling off the loop yields Python `None`, which
coincides with a matched `None` label.  `search pat s` models
`re.search(pat, s) is not None`. -/
def first_matching (search : PStr → PStr → Bool)
    (section_regexps : List (Option PStr × Option (List PStr))) (s : PStr) :
    Option PStr :=
  match section_regexps with
  | [] => none
  | (sec, regexps) :: rest =>
    match regexps with
    | none => sec
    | some rs => if rs.any (fun r => search r s) then sec
                 else first_matching search rest s

/-- The `collections.defaultdict(list)` mapping section label to accumulated
entries, as an association list in insertion order. -/
abbrev Sections := List (Option PStr × List PStr)

/-- Key lookup in the section map. -/
def secLookup : Sections → Option PStr → Option (List PStr)
  | [], _ => none
  | (k, v) :: rest, key => if k = key then some v else secLookup rest key

/-- `sections[key].append(e)` on the defaultdict. -/
def secAppend : Sections → Option PStr → PStr → Sections
  | [], key, e => [(key, [e])]
  | (k, v) :: rest, key, e =>
    if k = key then (k, v ++ [e]) :: rest else (k, v) :: secAppend rest key e

/-- The text one iteration of the label loop of `make_section_string` appends
for a single entry of `section_label_order`: nothing when the label is absent
from the map, otherwise an underlined sub-heading (suppressed when the label
renders as "Other" and it is the only section) followed by the entries. -/
def sectionChunk (sections : Sections) (nb_sections : Nat) (sec : Option PStr) :
    PStr :=
  match secLookup sections sec with
  | none => []
  | some entries =>
    let label : PStr := match sec with
      | none => ("Other").data
      | some l => if l = [] then ("Other").data else l
    (if label = ("Other").data ∧ nb_sections = 1 then []
     else label ++ '\n' :: (List.replicate label.length '~' ++ '\n' :: '\n' :: [])) ++
    entries.flatten

/-- Python `make_section_string` (gitchangelog lines 401-421). -/
def make_section_string (title : PStr) (sections : Sections)
    (order : List (Option PStr)) : PStr :=
  if sections.length ≠ 0 then
    let t := pstrip title
    t ++ '\n' :: (List.replicate t.length '-' ++ '\n' :: '\n' ::
      (order.map (sectionChunk sections sections.length)).flatten)
  else []

/-- Python 2 `\w` on `str`: `[a-zA-Z0-9_]`. -/
def isWord (c : Char) : Bool := c.isAlphanum || c = '_'

/-- The character class `[^0-9\W]` of `wordsep_re`: a word character that is
not a digit. -/
def isLetterU (c : Char) : Bool := isWord c && !c.isDigit

/-- Python `str.expandtabs()` with tab size 8; the column resets on newline
and carriage return. -/
def expandtabs : Nat → PStr → PStr
  | _, [] => []
  | col, c :: cs =>
    if c = '\t' then
      List.replicate (8 - col % 8) ' ' ++ expandtabs (col + (8 - col % 8)) cs
    else if c = '\n' ∨ c = '\r' then c :: expandtabs 0 cs
    else c :: expandtabs (col + 1) cs

/-- `TextWrapper._munge_whitespace`: expand tabs, then turn each whitespace
character into a single space. -/
def munge (text : PStr) : PStr :=
  (expandtabs 0 text).map (fun c => if isWS c then ' ' else c)

/-- First `wordsep_re` alternative `\s+`: a maximal whitespace run. -/
def wsMatch (s : PStr) : Option (PStr × PStr) :=
  match s with
  | [] => none
  | c :: cs =>
    if isWS c then some (c :: cs.takeWhile isWS, cs.dropWhile isWS) else none

/-- Second `wordsep_re` alternative, hyphenated words:
`[^\s\w]*\w+[^0-9\W]-(?=[^0-9\W])`.  The classes `[^\s\w]` and `\w` are
disjoint and a `-` cannot occur inside `\w+`, so with backtracking the match
is exactly: the maximal non-space non-word run, then the maximal word run
(at least two characters, ending in a letter or underscore that is not a
digit), then a hyphen followed by such a character. -/
def hyMatch (s : PStr) : Option (PStr × PStr) :=
  let sigma := s.takeWhile (fun c => !isWS c && !isWord c)
  let s1 := s.dropWhile (fun c => !isWS c && !isWord c)
  let rho := s1.takeWhile isWord
  let s2 := s1.dropWhile isWord
  match s2 with
  | d :: c :: rest =>
    if d = '-' ∧ 2 ≤ rho.length ∧ isLetterU (rho.getLastD ' ') = true ∧
        isLetterU c = true then
      some (sigma ++ rho ++ ['-'], c :: rest)
    else none
  | _ => none

/-- Third `wordsep_re` alternative, em-dashes between words:
`(?<=[\w\!\"\'\&\.\,\?])-{2,}(?=\w)`; `prev` is the character just before the
current scan position. -/
def emMatch (prev : Option Char) (s : PStr) : Option (PStr × PStr) :=
  match prev with
  | none => none
  | some p =>
    if isWord p || p = '!' || p = '"' || p = '\'' || p = '&' || p = '.' ||
        p = ',' || p = '?' then
      let h := s.takeWhile (fun c => c = '-')
      let rest := s.dropWhile (fun c => c = '-')
      match rest with
      | c :: _ => if 2 ≤ h.length ∧ isWord c = true then some (h, rest) else none
      | [] => none
    else none

/-- Try the three `wordsep_re` alternatives in the pattern's order at the
current scan position. -/
def tryWordsep (prev : Option Char) (s : PStr) : Option (PStr × PStr) :=
  (wsMatch s).orElse (fun _ => (hyMatch s).orElse (fun _ => emMatch prev s))

/-- `re.split(wordsep_re, text)` with the group captured: the interleaved
non-match and match pieces, scanning left to right, earliest match first.
`fuel` bounds the recursion; `text.length + 1` always suffices because every
match is non-empty. -/
def scanFuel : Nat → Option Char → PStr → PStr → List PStr
  | 0, _, s, cur => [cur.reverse ++ s]
  | fuel + 1, prev, s, cur =>
    match s with
    | [] => [cur.reverse]
    | c :: cs =>
      match tryWordsep prev (c :: cs) with
      | some (m, rest) => cur.reverse :: m :: scanFuel fuel (some (m.getLastD c)) rest []
      | none => scanFuel fuel (some c) cs (c :: cur)

/-- `TextWrapper._split`: the non-empty chunks of the `wordsep_re` scan. -/
def wordsepChunks (text : PStr) : List PStr :=
  (scanFuel (text.length + 1) none text []).filter (fun c => !c.isEmpty)

/-- The greedy inner loop of `_wrap_chunks`: move chunks onto the current line
while the running length stays within `width`. -/
def greedyTake (width : Nat) : Nat → List PStr → List PStr × List PStr
  | _, [] => ([], [])
  | cur_len, c :: cs =>
    if cur_len + c.length ≤ width then
      let p := greedyTake width (cur_len + c.length) cs
      (c :: p.1, p.2)
    else ([], c :: cs)

/-- One iteration of the outer `while chunks` loop of `_wrap_chunks`
(Python 2.7, default options: `drop_whitespace=True`, `break_long_words=True`,
empty indents): drop a leading all-whitespace chunk when some line was already
produced, fill the line greedily, break a remaining over-long chunk at the
space left, drop a trailing all-whitespace chunk of the line.  Returns the
produced line, if any, and the remaining chunks. -/
def dropLeadingBlank (hasLines : Bool) (chunks : List PStr) : List PStr :=
  match chunks with
  | c :: cs => if hasLines && c.all isWS then cs else chunks
  | [] => chunks

/-- `_handle_long_word` (Python 2.7, `break_long_words=True`): when the next
chunk does not fit on a line of its own, break it at the space left on the
current line (at least one character). -/
def handleLongWord (width : Nat) (taken rest : List PStr) :
    List PStr × List PStr :=
  match rest with
  | r :: rs =>
    if width < r.length then
      let space_left :=
        if width < 1 then 1 else width - (taken.map List.length).sum
      (taken ++ [r.take space_left], r.drop space_left :: rs)
    else (taken, rest)
  | [] => (taken, ([] : List PStr))

/-- `drop_whitespace` on the tail of the assembled line. -/
def dropTrailingBlank (cur_line : List PStr) : List PStr :=
  match cur_line.getLast? with
  | some l => if l.all isWS then cur_line.dropLast else cur_line
  | none => cur_line

def wrapStep (width : Nat) (hasLines : Bool) (chunks : List PStr) :
    Option PStr × List PStr :=
  let chunks1 := dropLeadingBlank hasLines chunks
  let p := greedyTake width 0 chunks1
  let q := handleLongWord width p.1 p.2
  let cur_line2 := dropTrailingBlank q.1
  (if cur_line2 ≠ [] then some cur_line2.flatten else none, q.2)

/-- Termination measure for the chunk loop. -/
def chunksMeasure (chunks : List PStr) : Nat :=
  (chunks.map (fun c => c.length + 1)).sum

/-- The outer loop of `_wrap_chunks`, with fuel bounding the number of
iterations (each iteration strictly decreases `chunksMeasure`). -/
def wrapLoopFuel (width : Nat) : Nat → List PStr → List PStr → List PStr
  | _, [], lines => lines
  | 0, _ :: _, lines => lines
  | fuel + 1, c :: cs, lines =>
    let p := wrapStep width (!lines.isEmpty) (c :: cs)
    wrapLoopFuel width fuel p.2 (lines ++ p.1.toList)

/-- Python 2.7 `textwrap.wrap(text)` with the default `TextWrapper` options
and the given width (the source always uses the default width, 70). -/
def pywrap (width : Nat) (text : PStr) : List PStr :=
  let text1 := munge text
  let chunks := wordsepChunks text1
  wrapLoopFuel width (chunksMeasure chunks + 1) chunks []

/-- Python `paragraph_wrap` (gitchangelog lines 182-198); `splitRe` models
`re.split` with the configured paragraph separator pattern. -/
def paragraph_wrap (splitRe : PStr → List PStr) (text : PStr) : PStr :=
  pstrip (joinLines '\n'
    ((splitRe text).map (fun par => joinLines '\n' (pywrap 70 (pstrip par)))))

/-- The maximal non-whitespace runs ("words") of a string; `fuel` bounds the
recursion and `s.length + 1` always suffices. -/
def pyWordsFuel : Nat → PStr → List PStr
  | 0, _ => []
  | fuel + 1, s =>
    match s with
    | [] => []
    | c :: cs =>
      if isWS c then pyWordsFuel fuel cs
      else (c :: cs.takeWhile (fun d => !isWS d)) ::
        pyWordsFuel fuel (cs.dropWhile (fun d => !isWS d))

/-- The maximal non-whitespace runs ("words") of a string. -/
def pyWords (s : PStr) : List PStr := pyWordsFuel (s.length + 1) s

/-- One parsed commit record: the fields of `GitCommit` that `changelog`
reads. -/
structure Commit where
  sha1 : PStr
  subject : PStr
  author_name : PStr
  author_date_timestamp : Int
  committer_date_timestamp : Int
  body : PStr
  identifier : PStr
deriving DecidableEq

/-- The output of `git rev-list a..b` on a linear history (`history` lists the
commits oldest first), returned oldest first: the segment strictly after `a`
up to and including `b`, and empty when `b` is not a strict descendant of
`a`. -/
def revListAsc (history : List Commit) (a b : Commit) : List Commit :=
  match history.findIdx? (fun c => decide (c.sha1 = a.sha1)) with
  | none => []
  | some ia =>
    match history.findIdx? (fun c => decide (c.sha1 = b.sha1)) with
    | none => []
    | some ib =>
      if ia < ib then (history.drop (ia + 1)).take (ib - ia) else []

/-- `GitCommit.__sub__` (gitchangelog lines 315-326): empty when the two
hashes are equal; otherwise `git rev-list value..self` (which prints newest
first) reversed to oldest-first; raises `ValueError` when that rev-list is
empty. -/
def GitCommit.sub (history : List Commit) (self value : Commit) :
    Except PStr (List Commit) :=
  if self.sha1 = value.sha1 then .ok []
  else
    let commits := (revListAsc history value self).reverse
    if commits = [] then
      .error (("Seems that ").data ++ self.identifier ++
        (" is earlier than ").data ++ value.identifier)
    else .ok commits.reverse

/-- `b` is a strict descendant of `a` in the linear history: both hashes
appear and `a` appears first. -/
def isDescendant (history : List Commit) (a b : Commit) : Bool :=
  match history.findIdx? (fun c => decide (c.sha1 = a.sha1)) with
  | none => false
  | some ia =>
    match history.findIdx? (fun c => decide (c.sha1 = b.sha1)) with
    | none => false
    | some ib => decide (ia < ib)

/-- The repository: its linear first-parent history (oldest first) and the
commits pointed to by tags. -/
structure GitRepos where
  history : List Commit
  tags : List Commit

/-- Insert into a list sorted by `le` (the step of `sortBy`). -/
def insertSorted {α : Type _} (le : α → α → Bool) (x : α) : List α → List α
  | [] => [x]
  | y :: ys => if le x y then x :: y :: ys else y :: insertSorted le x ys

/-- Python `sorted`, as a stable insertion sort by the boolean order `le`. -/
def sortBy {α : Type _} (le : α → α → Bool) : List α → List α
  | [] => []
  | x :: xs => insertSorted le x (sortBy le xs)

/-- `GitRepos.tags` (gitchangelog lines 370-376): tag commits sorted by
committer timestamp ascending. -/
def GitRepos.tagsSorted (r : GitRepos) : List Commit :=
  sortBy (fun a b => decide (a.committer_date_timestamp ≤ b.committer_date_timestamp))
    r.tags

/-- `repository[:]` (gitchangelog lines 378-393): `HEAD - LAST`, where `LAST`
is the earliest commit and `HEAD` the tip. -/
def GitRepos.slice (r : GitRepos) : Except PStr (List Commit) :=
  match r.history with
  | [] => .error (("Given commit identifier doesn't exists").data)
  | h :: t => GitCommit.sub r.history ((h :: t).getLast (by simp)) h

/-- `reversed(repository[:])`: the commit sequence consumed by the loop in
`changelog` (gitchangelog line 454). -/
def changelogCommits (r : GitRepos) : List Commit :=
  match r.slice with
  | .ok l => l.reverse
  | .error _ => []

/-- The external library operations `changelog` depends on: `re.search`,
`re.match`, `re.sub`, `re.split` with the body separator, and
`datetime.utcfromtimestamp(...).strftime('%Y-%m-%d')`. -/
structure RegexEngine where
  search : PStr → PStr → Bool
  rmatch : PStr → PStr → Bool
  rsub : PStr → PStr → PStr → PStr
  bodySplit : PStr → List PStr
  utcDate : Int → PStr

/-- The body of the `for commit in reversed(repository[:])` loop of
`changelog` (gitchangelog lines 454-493), acting on the accumulated
`(s, title, sections)` state. -/
def changelogStep (eng : RegexEngine) (tags : List Commit)
    (ignore_regexps : List PStr) (replace_regexps : List (PStr × PStr))
    (section_regexps : List (Option PStr × Option (List PStr)))
    (section_order : List (Option PStr))
    (st : PStr × PStr × Sections) (commit : Commit) : PStr × PStr × Sections :=
  let s := st.1
  let title := st.2.1
  let sections := st.2.2
  let tags_of_commit := tags.filter (fun tag => decide (tag.sha1 = commit.sha1))
  let st1 :=
    if 0 < tags_of_commit.length then
      let tag := tags_of_commit.headD commit
      (s ++ make_section_string title sections section_order,
       tag.identifier ++ (" (").data ++ eng.utcDate commit.author_date_timestamp ++
         ')' :: '\n' :: [],
       ([] : Sections))
    else (s, title, sections)
  if ignore_regexps.any (fun pattern => eng.search pattern commit.subject) then
    st1
  else
    let matched_section := first_matching eng.search section_regexps commit.subject
    let subject := replace_regexps.foldl (fun subj pr => eng.rsub pr.1 pr.2 subj)
      commit.subject
    let subject := final_dot subject
    let subject := subject ++ (" [").data ++ commit.author_name ++ [']']
    let entry := pstrip (indent (joinLines '\n' (pywrap 70 (ucfirst subject)))
      (("  ").data) (some (("- ").data))) ++ '\n' :: '\n' :: []
    let entry :=
      if commit.body ≠ [] then
        entry ++ indent (paragraph_wrap eng.bodySplit commit.body) (("  ").data) none ++
          '\n' :: '\n' :: []
      else entry
    (st1.1, st1.2.1, secAppend st1.2.2 matched_section entry)

/-- Python `changelog` (gitchangelog lines 433-496). -/
def changelog (eng : RegexEngine) (repository : GitRepos)
    (ignore_regexps : List PStr) (replace_regexps : List (PStr × PStr))
    (section_regexps : List (Option PStr × Option (List PStr)))
    (unreleased_version_label : PStr) (tag_filter_regexp : PStr) : PStr :=
  let s := ("Changelog\n=========\n\n").data
  let tags := repository.tagsSorted.reverse.filter
    (fun tag => eng.rmatch tag_filter_regexp tag.identifier)
  let section_order := section_regexps.map Prod.fst
  let title := unreleased_version_label ++ ['\n']
  let st := (changelogCommits repository).foldl
    (changelogStep eng tags ignore_regexps replace_regexps section_regexps
      section_order)
    (s, title, ([] : Sections))
  st.1 ++ make_section_string st.2.1 st.2.2 section_order

/-- Nested dictionaries handled by `inflate_dict`: a string value (scalar
leaf) or a nested key/value map in insertion order. -/
inductive IDict where
  | leaf : PStr → IDict
  | node : List (PStr × IDict) → IDict

/-- Python `k.split(sep, 1)`: `none` when `sep not in k`, otherwise the part
before the first separator and the rest. -/
def splitFirst (sep : Char) : PStr → Option (PStr × PStr)
  | [] => none
  | c :: cs =>
    if c = sep then some ([], cs)
    else
      match splitFirst sep cs with
      | none => none
      | some (a, b) => some (c :: a, b)

/-- `dct[k] = v` on an insertion-ordered association list. -/
def assocSet (entries : List (PStr × IDict)) (k : PStr) (v : IDict) :
    List (PStr × IDict) :=
  match entries with
  | [] => [(k, v)]
  | (k1, v1) :: rest =>
    if k1 = k then (k, v) :: rest else (k1, v1) :: assocSet rest k v

/-- Key lookup in an association list. -/
def assocLookup : List (PStr × IDict) → PStr → Option IDict
  | [], _ => none
  | (k1, v1) :: rest, key => if k1 = key then some v1 else assocLookup rest key

/-- The inner `mset` of `inflate_dict` (gitchangelog lines 121-130), with fuel
bounding the recursion (`k.length + 1` always suffices since each step
recurses on a strictly shorter tail of the key).  A Python `dict` is a
`node`; applying `mset` with a string value as `dct` raises `TypeError` (item
assignment, or indexing a string by a string), which the docstring of
`inflate_dict` documents. -/
def msetFuel : Nat → IDict → PStr → PStr → Char → Int → Except PStr IDict
  | _, .leaf _, _, _, _, _ => .error (("TypeError").data)
  | fuel, .node entries, k, v, sep, deep =>
    match (if deep = 0 then none else splitFirst sep k) with
    | none => .ok (.node (assocSet entries k (.leaf v)))
    | some (khead, ktail) =>
      match fuel with
      | 0 => .error (("fuel").data)
      | fuel1 + 1 =>
        match msetFuel fuel1 ((assocLookup entries khead).getD (.node [])) ktail v
            sep (if deep < 0 then -1 else deep - 1) with
        | .error e => .error e
        | .ok child => .ok (.node (assocSet entries khead child))

/-- The inner `mset` of `inflate_dict` with its fuel filled in. -/
def mset (dct : IDict) (k v : PStr) (sep : Char) (deep : Int) :
    Except PStr IDict :=
  msetFuel (k.length + 1) dct k v sep deep

/-- Python string comparison: lexicographic by code point. -/
def pyLe : PStr → PStr → Bool
  | [], _ => true
  | _ :: _, [] => false
  | a :: as, b :: bs => if a = b then pyLe as bs else decide (a.toNat < b.toNat)

/-- First-match lookup of a key's value in the flat dictionary. -/
def lookupV : List (PStr × PStr) → PStr → Option PStr
  | [], _ => none
  | (k, v) :: rest, key => if k = key then some v else lookupV rest key

/-- Python `inflate_dict` (gitchangelog lines 75-137): sort the keys, then
`mset` each key/value pair into the fresh result; the first `TypeError`
aborts the whole inflation. -/
def inflate_dict (dct : List (PStr × PStr)) (sep : Char) (deep : Int) :
    Except PStr IDict :=
  (sortBy pyLe (dct.map Prod.fst)).foldlM
    (fun res k => mset res k ((lookupV dct k).getD []) sep deep) (.node [])

/-- Follow a path of keys through a nested dictionary. -/
def getPath : IDict → List PStr → Option IDict
  | d, [] => some d
  | .leaf _, _ :: _ => none
  | .node es, k :: ks =>
    match assocLookup es k with
    | none => none
    | some d => getPath d ks

theorem pysplitAux_eq (sep : Char) (s : PStr) (cur : PStr) :
    pysplitAux sep s cur =
      (cur.reverse ++ (pysplitAux sep s []).headD []) :: (pysplitAux sep s []).tail := by
  induction s generalizing cur with
  | nil => simp [pysplitAux]
  | cons c cs ih =>
    by_cases h : c = sep
    · simp [pysplitAux, h]
    · simp only [pysplitAux, if_neg h]
      rw [ih (c :: cur), ih [c]]
      simp

theorem pysplit_nil (sep : Char) : pysplit sep [] = [[]] := rfl

theorem pysplit_cons (sep : Char) (c : Char) (cs : PStr) :
    pysplit sep (c :: cs) =
      if c = sep then [] :: pysplit sep cs
      else (c :: (pysplit sep cs).headD []) :: (pysplit sep cs).tail := by
  by_cases h : c = sep
  · simp [pysplit, pysplitAux, h]
  · simp only [pysplit, pysplitAux, if_neg h]
    rw [pysplitAux_eq]
    simp

theorem pysplit_ne_nil (sep : Char) (s : PStr) : pysplit sep s ≠ [] := by
  cases s with
  | nil => simp [pysplit_nil]
  | cons c cs =>
    rw [pysplit_cons]
    by_cases h : c = sep <;> simp [h]

theorem pysplit_eq_cons (sep : Char) (s : PStr) :
    pysplit sep s = (pysplit sep s).headD [] :: (pysplit sep s).tail := by
  rcases h : pysplit sep s with _ | ⟨a, t⟩
  · exact absurd h (pysplit_ne_nil sep s)
  · simp

theorem not_mem_of_mem_pysplit {sep : Char} {s l : PStr}
    (hl : l ∈ pysplit sep s) : sep ∉ l := by
  induction s generalizing l with
  | nil => simp [pysplit_nil] at hl; simp [hl]
  | cons c cs ih =>
    rw [pysplit_cons] at hl
    by_cases h : c = sep
    · rw [if_pos h] at hl
      rcases List.mem_cons.mp hl with hl | hl
      · simp [hl]
      · exact ih hl
    · rw [if_neg h] at hl
      rcases hP : pysplit sep cs with _ | ⟨p0, pt⟩
      · exact absurd hP (pysplit_ne_nil sep cs)
      · rw [hP] at hl
        simp only [List.headD_cons, List.tail_cons] at hl
        have ih' : ∀ {x : PStr}, x ∈ p0 :: pt → sep ∉ x := fun hx => ih (by rw [hP]; exact hx)
        rcases List.mem_cons.mp hl with hl | hl
        · subst hl
          intro hmem
          rcases List.mem_cons.mp hmem with hmem | hmem
          · exact h hmem.symm
          · exact ih' (List.mem_cons_self p0 pt) hmem
        · exact ih' (List.mem_cons_of_mem p0 hl)

theorem joinLines_cons₂ (sep : Char) (l a : PStr) (as : List PStr) :
    joinLines sep (l :: a :: as) = l ++ sep :: joinLines sep (a :: as) := rfl

theorem joinLines_pysplit (sep : Char) (s : PStr) :
    joinLines sep (pysplit sep s) = s := by
  induction s with
  | nil => simp [pysplit_nil, joinLines]
  | cons c cs ih =>
    rw [pysplit_cons]
    by_cases h : c = sep
    · rw [if_pos h]
      conv_lhs => rw [pysplit_eq_cons sep cs]
      rw [joinLines_cons₂]
      conv_lhs => rw [← pysplit_eq_cons sep cs]
      rw [ih, h]
      rfl
    · rw [if_neg h]
      rcases hP : pysplit sep cs with _ | ⟨p0, pt⟩
      · exact absurd hP (pysplit_ne_nil sep cs)
      · have ih2 : joinLines sep (p0 :: pt) = cs := by rw [← hP]; exact ih
        simp only [List.headD_cons, List.tail_cons]
        rcases pt with _ | ⟨a, as⟩
        · simp only [joinLines] at ih2 ⊢
          rw [ih2]
        · rw [joinLines_cons₂] at ih2
          rw [joinLines_cons₂]
          rw [List.cons_append, ih2]

theorem pysplit_no_sep {sep : Char} {l : PStr} (h : sep ∉ l) :
    pysplit sep l = [l] := by
  induction l with
  | nil => exact pysplit_nil sep
  | cons c cs ih =>
    have hc : c ≠ sep := fun hc => h (hc ▸ List.mem_cons_self c cs)
    have hcs : sep ∉ cs := fun hm => h (List.mem_cons_of_mem c hm)
    rw [pysplit_cons, if_neg hc, ih hcs]
    rfl

theorem pysplit_append_sep (sep : Char) (a b : PStr) :
    pysplit sep (a ++ sep :: b) = pysplit sep a ++ pysplit sep b := by
  induction a with
  | nil =>
    rw [List.nil_append, pysplit_cons, if_pos rfl, pysplit_nil]
    rfl
  | cons c a' ih =>
    by_cases h : c = sep
    · rw [List.cons_append, pysplit_cons, if_pos h, ih, pysplit_cons, if_pos h]
      rfl
    · rw [List.cons_append, pysplit_cons, if_neg h, ih, pysplit_cons, if_neg h]
      rcases hs : pysplit sep a' with _ | ⟨p0, pt⟩
      · exact absurd hs (pysplit_ne_nil sep a')
      · simp

theorem pysplit_joinLines {sep : Char} {ls : List PStr} (hne : ls ≠ [])
    (hsep : ∀ l ∈ ls, sep ∉ l) :
    pysplit sep (joinLines sep ls) = ls := by
  induction ls with
  | nil => exact absurd rfl hne
  | cons l ls ih =>
    rcases ls with _ | ⟨a, as⟩
    · exact pysplit_no_sep (hsep l (List.mem_cons_self _ _))
    · rw [joinLines_cons₂, pysplit_append_sep,
        pysplit_no_sep (hsep l (List.mem_cons_self _ _)),
        ih (by simp) (fun x hx => hsep x (List.mem_cons_of_mem _ hx))]
      rfl

theorem occursIn_iff (w s : PStr) : occursIn w s = true ↔ w <:+: s := by
  induction s with
  | nil =>
    simp only [occursIn, decide_eq_true_eq]
    constructor
    · rintro rfl; exact ⟨[], [], rfl⟩
    · rintro ⟨u, v, huv⟩
      rcases List.append_eq_nil.mp huv with ⟨huw, _⟩
      exact (List.append_eq_nil.mp huw).2
  | cons c cs ih =>
    simp only [occursIn, Bool.or_eq_true, decide_eq_true_eq, ih]
    constructor
    · rintro (h | h)
      · exact h.isInfix
      · exact h.trans ⟨[c], [], by simp⟩
    · rintro ⟨u, v, huv⟩
      rcases u with _ | ⟨x, xs⟩
      · left; exact ⟨v, by simpa using huv⟩
      · right
        refine ⟨xs, v, ?_⟩
        have h2 : x :: (xs ++ w ++ v) = c :: cs := by simpa using huv
        exact (List.cons.inj h2).2

theorem stripPrefixP_append (p l : PStr) : stripPrefixP p (p ++ l) = l := by
  unfold stripPrefixP
  rw [if_pos ⟨l, rfl⟩]
  exact List.drop_left p l

theorem headD_mem_pysplit (sep : Char) (s : PStr) :
    (pysplit sep s).headD [] ∈ pysplit sep s := by
  rcases h : pysplit sep s with _ | ⟨p0, pt⟩
  · exact absurd h (pysplit_ne_nil sep s)
  · simp

/-- Claim C10: `final_dot` always returns a non-empty string — the literal
"No commit message." on empty input — so `ucfirst`, which reads the first
character of its argument, is never handed an empty string by the rendering
pipeline (its argument there extends `final_dot` output). -/
theorem final_dot_ne_nil (msg : PStr) :
    final_dot msg ≠ [] ∧ final_dot [] = ("No commit message.").data := by
  refine ⟨?_, rfl⟩
  unfold final_dot
  by_cases h : msg.length = 0
  · rw [if_pos h]; decide
  · rw [if_neg h]
    by_cases h2 : (msg.getLastD ' ').isAlphanum = true
    · rw [if_pos h2]; simp
    · rw [if_neg h2]
      intro hh
      exact h (by simp [hh])

/-- Claim C8: the shell wrapper raises exactly when the subprocess exit code
is outside the caller-supplied allow-list; an accepted exit code (zero or
not) returns the captured stdout, and with the default allow-list `[0]`
success is exactly exit code zero. -/
theorem wrap_error_iff (command out err : PStr) (errlvl : Int)
    (ignores : List Int) :
    (errlvl ∈ ignores → wrap command out err errlvl ignores = .ok out) ∧
    (errlvl ∉ ignores → ∃ msg, wrap command out err errlvl ignores = .error msg) ∧
    ((wrap command out err errlvl [0]).isOk = true ↔ errlvl = 0) := by
  refine ⟨fun h => ?_, fun h => ?_, ?_⟩
  · unfold wrap
    rw [if_neg (not_not_intro h)]
  · unfold wrap
    rw [if_pos h]
    exact ⟨_, rfl⟩
  · unfold wrap
    by_cases h : errlvl ∈ ([0] : List Int)
    · have h0 : errlvl = 0 := by simpa using h
      rw [if_neg (not_not_intro h)]
      simp [h0, Except.isOk, Except.toBool]
    · rw [if_pos h]
      simp only [Except.isOk, Except.toBool]
      constructor
      · intro hh; exact absurd hh (by decide)
      · intro hh; exact absurd (by simp [hh] : errlvl ∈ ([0] : List Int)) h

/-- Witness for `wrap_error_iff`: exit code 1 accepted by the allow-list
`[0, 1]` returns stdout without raising. -/
theorem wrap_error_iff_witness :
    wrap (("cmd").data) (("out").data) [] 1 [0, 1] = .ok (("out").data) :=
  (wrap_error_iff (("cmd").data) (("out").data) [] 1 [0, 1]).1 (by decide)

theorem revListAsc_eq_nil_of_not_descendant {history : List Commit}
    {a b : Commit} (h : isDescendant history a b = false) :
    revListAsc history a b = [] := by
  unfold isDescendant at h
  unfold revListAsc
  split at h
  · rfl
  · split at h
    · rfl
    · simp only [decide_eq_false_iff_not] at h
      rw [if_neg h]

/-- Claim C4: the range operation on identical hashes returns the empty
sequence, and for commits with distinct hashes where `b` is not a descendant
of `a`, `range(a, b)` — computed as `b - a` — raises the ordering
`ValueError` instead of returning an empty result. -/
theorem sub_empty_and_ordering (history : List Commit) (a b : Commit) :
    GitCommit.sub history a a = .ok [] ∧
    (a.sha1 ≠ b.sha1 → isDescendant history a b = false →
      ∃ e, GitCommit.sub history b a = .error e) := by
  constructor
  · unfold GitCommit.sub
    rw [if_pos rfl]
  · intro hne hdesc
    unfold GitCommit.sub
    rw [if_neg (fun hh => hne hh.symm)]
    rw [revListAsc_eq_nil_of_not_descendant hdesc]
    exact ⟨_, rfl⟩

/-- Witness for `sub_empty_and_ordering`: a two-commit history where the
second argument commit is the newer one, so the range in the wrong direction
raises. -/
theorem sub_empty_and_ordering_witness :
    ∃ e, GitCommit.sub
      [⟨("a").data, [], [], 1, 1, [], ("a").data⟩,
       ⟨("b").data, [], [], 2, 2, [], ("b").data⟩]
      ⟨("a").data, [], [], 1, 1, [], ("a").data⟩
      ⟨("b").data, [], [], 2, 2, [], ("b").data⟩ = .error e :=
  (sub_empty_and_ordering
    [⟨("a").data, [], [], 1, 1, [], ("a").data⟩,
     ⟨("b").data, [], [], 2, 2, [], ("b").data⟩]
    ⟨("b").data, [], [], 2, 2, [], ("b").data⟩
    ⟨("a").data, [], [], 1, 1, [], ("a").data⟩).2 (by decide) (by decide)

theorem pysplit_indentChars (chars text : PStr) (hcn : '\n' ∉ chars) :
    pysplit '\n' (indentChars chars text) =
      (pysplit '\n' text).map (fun line => chars ++ line) := by
  unfold indentChars
  refine pysplit_joinLines ?_ ?_
  · simp [pysplit_ne_nil]
  · intro l hl
    rcases List.mem_map.mp hl with ⟨x, hx, rfl⟩
    intro hmem
    rcases List.mem_append.mp hmem with hm | hm
    · exact hcn hm
    · exact not_mem_of_mem_pysplit hx hm

/-- Counterexample to claim C6: `indent("a\nb", chars="  ", first="--- ")`
prefixes the second line with the two-space `chars` default, not with four
spaces matching the length of `first`. -/
theorem indent_first_counterexample :
    ((pysplit '\n' (indent (("a\nb").data) (("  ").data)
        (some (("--- ").data)))).tail.all
      (fun l => decide (List.replicate (("--- ").data).length ' ' <+: l)))
      = false := by decide

/-- Claim C6 (amended): whenever a truthy `first_line_prefix` is given, the
first line of the text is prefixed with it, and every subsequent line is
prefixed with the `chars` argument (two spaces by default) — not with a run
of spaces whose length matches `first_line_prefix`. -/
theorem indent_first_amended (text chars f : PStr) (hf : f ≠ [])
    (hfn : '\n' ∉ f) (hcn : '\n' ∉ chars) :
    (pysplit '\n' (indent text chars (some f))).headD [] =
      f ++ (pysplit '\n' text).headD [] ∧
    ∀ l ∈ (pysplit '\n' (indent text chars (some f))).tail, chars <+: l := by
  have hns : '\n' ∉ f ++ (pysplit '\n' text).headD [] := by
    intro hm
    rcases List.mem_append.mp hm with hm | hm
    · exact hfn hm
    · exact not_mem_of_mem_pysplit (headD_mem_pysplit '\n' text) hm
  have hsplit : pysplit '\n' (indent text chars (some f)) =
      (f ++ (pysplit '\n' text).headD []) ::
        (pysplit '\n' (joinLines '\n' (pysplit '\n' text).tail)).map
          (fun l => chars ++ l) := by
    show pysplit '\n'
        (if f = [] then indentChars chars text
         else f ++ (pysplit '\n' text).headD [] ++
           '\n' :: indentChars chars (joinLines '\n' (pysplit '\n' text).tail)) = _
    rw [if_neg hf, pysplit_append_sep, pysplit_no_sep hns,
      pysplit_indentChars chars _ hcn]
    rfl
  rw [hsplit]
  refine ⟨rfl, ?_⟩
  intro l hl
  simp only [List.tail_cons] at hl
  rcases List.mem_map.mp hl with ⟨x, _, rfl⟩
  exact ⟨x, rfl⟩

/-- Witness for `indent_first_amended` at the call-site shape
`indent("x\ny", "  ", first="- ")`. -/
theorem indent_first_amended_witness :
    (pysplit '\n' (indent (("x\ny").data) (("  ").data)
        (some (("- ").data)))).headD [] =
      ("- ").data ++ (pysplit '\n' (("x\ny").data)).headD [] ∧
    ∀ l ∈ (pysplit '\n' (indent (("x\ny").data) (("  ").data)
        (some (("- ").data)))).tail, ("  ").data <+: l :=
  indent_first_amended (("x\ny").data) (("  ").data) (("- ").data)
    (by decide) (by decide) (by decide)

/-- Counterexample to claim C9: with the prefix `p = "\n"` the round-trip
fails — `indent("a", "\n")` is `"\na"`, whose lines do not start with `p`, so
stripping changes nothing and the result differs from the original text. -/
theorem indent_roundtrip_counterexample :
    rmPrefixLines ['\n'] (indent (("a").data) ['\n'] none) ≠ ("a").data := by
  decide

/-- Claim C9 (amended): for every text and every newline-free prefix `p`,
applying `indent(text, p)` and then removing `p` from the start of every line
of the result reconstructs `text` exactly. -/
theorem indent_roundtrip (text p : PStr) (hp : '\n' ∉ p) :
    rmPrefixLines p (indent text p none) = text := by
  show rmPrefixLines p (indentChars p text) = text
  unfold rmPrefixLines
  rw [pysplit_indentChars p text hp, List.map_map]
  have hmap : ((pysplit '\n' text).map (stripPrefixP p ∘ fun line => p ++ line)) =
      (pysplit '\n' text).map id := by
    refine List.map_congr_left ?_
    intro a _
    exact stripPrefixP_append p a
  rw [hmap, List.map_id]
  exact joinLines_pysplit '\n' text

/-- Witness for `indent_roundtrip` at `text = "ab\ncd"`, `p = "| "`. -/
theorem indent_roundtrip_witness :
    rmPrefixLines (("| ").data) (indent (("ab\ncd").data) (("| ").data) none) =
      ("ab\ncd").data :=
  indent_roundtrip (("ab\ncd").data) (("| ").data) (by decide)

/-- Counterexample to claim C2: a repository whose single consumed commit is
ignored, so the final accumulated block has an empty section map; the block
is flushed, but renders as the empty string, and its title "unreleased" does
not appear in the returned document. -/
theorem changelog_final_flush_counterexample :
    occursIn (("unreleased").data)
      (changelog
        ⟨fun pat s => occursIn pat s, fun _ _ => false, fun _ _ s => s,
          fun s => [s], fun _ => []⟩
        ⟨[⟨("a").data, ("x").data, [], 1, 1, [], ("a").data⟩,
          ⟨("b").data, ("wip").data, [], 2, 2, [], ("b").data⟩], []⟩
        [("wip").data] [] [(some (("F").data), some [("f").data])]
        (("unreleased").data) (("v").data)) = false := by decide

/-- Claim C2 (amended): after the last commit the accumulated block is flushed
unconditionally, but `make_section_string` renders a block with an empty
section map as the empty string — the title is omitted; the title (stripped,
with its underline) appears as a prefix of the flushed block exactly when at
least one section was accumulated. -/
theorem make_section_string_empty_iff (title : PStr) (sections : Sections)
    (order : List (Option PStr)) :
    (sections = [] → make_section_string title sections order = []) ∧
    (sections ≠ [] →
      pstrip title ++ '\n' :: List.replicate (pstrip title).length '-'
        <+: make_section_string title sections order) := by
  constructor
  · intro h; subst h; rfl
  · intro h
    unfold make_section_string
    rw [if_pos (by simpa using h)]
    refine ⟨'\n' :: '\n' ::
      (order.map (sectionChunk sections sections.length)).flatten, ?_⟩
    simp

/-- Witness for `make_section_string_empty_iff`: with one accumulated section
the flushed block starts with the stripped title and its underline. -/
theorem make_section_string_empty_iff_witness :
    pstrip (("unreleased\n").data) ++
        '\n' :: List.replicate (pstrip (("unreleased\n").data)).length '-'
      <+: make_section_string (("unreleased\n").data) [(none, [("- E.\n\n").data])]
        [none] :=
  (make_section_string_empty_iff (("unreleased\n").data)
    [(none, [("- E.\n\n").data])] [none]).2 (by decide)

theorem revListAsc_sublist (history : List Commit) (a b : Commit) :
    (revListAsc history a b).Sublist history := by
  unfold revListAsc
  split
  · exact List.nil_sublist _
  · rename_i ia hia
    split
    · exact List.nil_sublist _
    · rename_i ib hib
      by_cases hlt : ia < ib
      · rw [if_pos hlt]
        exact (List.take_sublist _ _).trans (List.drop_sublist _ _)
      · rw [if_neg hlt]
        exact List.nil_sublist _

theorem sub_ok_sublist {history : List Commit} {x y : Commit}
    {l : List Commit} (h : GitCommit.sub history x y = .ok l) :
    l.Sublist history := by
  unfold GitCommit.sub at h
  by_cases he : x.sha1 = y.sha1
  · rw [if_pos he] at h
    cases h
    exact List.nil_sublist _
  · rw [if_neg he] at h
    by_cases hc : (revListAsc history y x).reverse = []
    · rw [if_pos hc] at h
      cases h
    · rw [if_neg hc] at h
      cases h
      rw [List.reverse_reverse]
      exact revListAsc_sublist _ _ _

/-- Counterexample to claim C1: in a three-commit repository with ascending
timestamps, the sequence consumed by the changelog loop is not sorted
ascending by commit time (it is the reverse). -/
theorem changelog_order_counterexample :
    ¬ (changelogCommits
        ⟨[⟨("a").data, [], [], 1, 1, [], ("a").data⟩,
          ⟨("b").data, [], [], 2, 2, [], ("b").data⟩,
          ⟨("c").data, [], [], 3, 3, [], ("c").data⟩], []⟩).Pairwise
      (fun x y => x.author_date_timestamp ≤ y.author_date_timestamp) := by
  decide

/-- Claim C1 (amended): for every repository whose linear history is sorted
ascending by commit time, the sequence of commits consumed by the changelog
loop — `reversed(repository[:])` — is sorted descending (newest to oldest),
so each release tag boundary is encountered before the commits it releases. -/
theorem changelogCommits_sorted_desc (r : GitRepos)
    (hasc : r.history.Pairwise
      (fun x y => x.author_date_timestamp ≤ y.author_date_timestamp)) :
    (changelogCommits r).Pairwise
      (fun x y => y.author_date_timestamp ≤ x.author_date_timestamp) := by
  unfold changelogCommits
  rcases hs : r.slice with e | l
  · simp
  · simp only []
    rw [List.pairwise_reverse]
    refine List.Pairwise.sublist ?_ hasc
    unfold GitRepos.slice at hs
    rcases hh : r.history with _ | ⟨h0, t⟩
    · rw [hh] at hs; cases hs
    · rw [hh] at hs
      have hs2 : GitCommit.sub (h0 :: t) ((h0 :: t).getLast (by simp)) h0 = .ok l := hs
      exact sub_ok_sublist hs2

/-- Witness for `changelogCommits_sorted_desc` on a concrete three-commit
repository with ascending history. -/
theorem changelogCommits_sorted_desc_witness :
    (changelogCommits
        ⟨[⟨("a").data, [], [], 1, 1, [], ("a").data⟩,
          ⟨("b").data, [], [], 2, 2, [], ("b").data⟩,
          ⟨("c").data, [], [], 3, 3, [], ("c").data⟩], []⟩).Pairwise
      (fun x y => y.author_date_timestamp ≤ x.author_date_timestamp) :=
  changelogCommits_sorted_desc _ (by decide)

/-- Counterexample to claim C3: a commit whose subject matches no section rule
gets section label None, but the configured order `[("Fix", ...)]` does not
contain None, so the entry (which would contain "Random") is dropped from the
output document entirely instead of being rendered under "Other". -/
theorem unmatched_not_rendered_counterexample :
    occursIn (("Random").data)
      (changelog
        ⟨fun pat s => occursIn pat s, fun _ _ => false, fun _ _ s => s,
          fun s => [s], fun _ => []⟩
        ⟨[⟨("a").data, ("x").data, [], 1, 1, [], ("a").data⟩,
          ⟨("b").data, ("random stuff").data, [], 2, 2, [], ("b").data⟩], []⟩
        [] [] [(some (("Fix").data), some [("fix").data])]
        (("unreleased").data) (("v").data)) = false := by decide

/-- Claim C3 (amended): a commit subject matching no section rule gets section
label None; entries accumulated under None are rendered exactly when None
occurs in the configured section order — in which case the None chunk is a
contiguous substring of the rendered block, consisting of the entries under
the sub-heading "Other", the sub-heading being suppressed exactly when it is
the only section present in that release block. -/
theorem unmatched_section_rendering
    (search : PStr → PStr → Bool)
    (rules : List (Option PStr × Option (List PStr))) (subject : PStr)
    (title : PStr) (sections : Sections) (order : List (Option PStr))
    (entries : List PStr)
    (hnm : ∀ p ∈ rules, p.2 ≠ none ∧ ∀ r ∈ p.2.getD [], search r subject = false) :
    first_matching search rules subject = none ∧
    (secLookup sections none = some entries →
      sectionChunk sections sections.length none =
        (if sections.length = 1 then []
         else ("Other").data ++
           '\n' :: (List.replicate (("Other").data).length '~' ++ '\n' :: '\n' :: [])) ++
        entries.flatten) ∧
    (none ∈ order → sections ≠ [] →
      sectionChunk sections sections.length none <:+:
        make_section_string title sections order) := by
  refine ⟨?_, ?_, ?_⟩
  · induction rules with
    | nil => rfl
    | cons p rest ih =>
      obtain ⟨hne, hall⟩ := hnm p (List.mem_cons_self _ _)
      rcases p with ⟨sec, regexps⟩
      rcases hor : regexps with _ | rs
      · exact absurd (by simp [hor]) hne
      · rw [hor] at hall
        simp only [Option.getD_some] at hall
        show (if rs.any (fun r => search r subject) = true then sec
              else first_matching search rest subject) = none
        have hany : ¬ (rs.any (fun r => search r subject) = true) := by
          intro hany
          rcases List.any_eq_true.mp hany with ⟨r, hr, hsr⟩
          rw [hall r hr] at hsr
          cases hsr
        rw [if_neg hany]
        exact ih (fun q hq => hnm q (List.mem_cons_of_mem _ hq))
  · intro hlk
    unfold sectionChunk
    rw [hlk]
    show (if ("Other").data = ("Other").data ∧ sections.length = 1 then []
          else ("Other").data ++
            '\n' :: (List.replicate (("Other").data).length '~' ++ '\n' :: '\n' :: [])) ++
        entries.flatten = _
    by_cases h1 : sections.length = 1
    · rw [if_pos ⟨rfl, h1⟩, if_pos h1]
    · rw [if_neg (fun hh => h1 hh.2), if_neg h1]
  · intro hmem hne
    have hchunk : sectionChunk sections sections.length none ∈
        order.map (sectionChunk sections sections.length) :=
      List.mem_map_of_mem _ hmem
    have h1 : sectionChunk sections sections.length none <:+:
        (order.map (sectionChunk sections sections.length)).flatten :=
      List.infix_of_mem_flatten hchunk
    refine h1.trans ?_
    unfold make_section_string
    rw [if_pos (by simpa using hne)]
    refine ⟨pstrip title ++ '\n' :: (List.replicate (pstrip title).length '-' ++
      '\n' :: '\n' :: []), [], ?_⟩
    simp

/-- Witness for `unmatched_section_rendering`: a rule list whose single rule
does not match, a section map holding one None entry next to a "Fix" section,
and an order containing None. -/
theorem unmatched_section_rendering_witness :
    first_matching (fun _ _ => false)
      [(some (("Fix").data), some [("fix").data])] (("random").data) = none ∧
    (secLookup [(none, [("E").data]), (some (("Fix").data), [("F").data])] none =
        some [("E").data] →
      sectionChunk [(none, [("E").data]), (some (("Fix").data), [("F").data])]
        (List.length [(none, [("E").data]), (some (("Fix").data), [("F").data])])
        none =
        (if List.length [(none, [("E").data]), (some (("Fix").data), [("F").data])] = 1
         then []
         else ("Other").data ++
           '\n' :: (List.replicate (("Other").data).length '~' ++ '\n' :: '\n' :: [])) ++
        [("E").data].flatten) ∧
    (none ∈ [some (("Fix").data), none] →
      [(none, [("E").data]), (some (("Fix").data), [("F").data])] ≠ [] →
      sectionChunk [(none, [("E").data]), (some (("Fix").data), [("F").data])]
        (List.length [(none, [("E").data]), (some (("Fix").data), [("F").data])])
        none <:+:
        make_section_string (("t").data)
          [(none, [("E").data]), (some (("Fix").data), [("F").data])]
          [some (("Fix").data), none]) :=
  unmatched_section_rendering (fun _ _ => false)
    [(some (("Fix").data), some [("fix").data])] (("random").data)
    (("t").data) [(none, [("E").data]), (some (("Fix").data), [("F").data])]
    [some (("Fix").data), none] [("E").data] (by decide)

theorem charToNat_inj {a b : Char} (h : a.toNat = b.toNat) : a = b :=
  Char.ext (UInt32.ext h)

theorem pyLe_total (a b : PStr) : pyLe a b = true ∨ pyLe b a = true := by
  induction a generalizing b with
  | nil => left; rfl
  | cons x xs ih =>
    rcases b with _ | ⟨y, ys⟩
    · right; rfl
    · by_cases hxy : x = y
      · subst hxy
        rcases ih ys with h | h
        · left; simp [pyLe, h]
        · right; simp [pyLe, h]
      · have hyx2 : ¬ y = x := fun hh => hxy hh.symm
        rcases Nat.lt_or_ge x.toNat y.toNat with h | h
        · left
          simp only [pyLe, if_neg hxy]
          simpa using h
        · have hyx : y.toNat < x.toNat := by
            rcases Nat.eq_or_lt_of_le h with h2 | h2
            · exact absurd (charToNat_inj h2).symm hxy
            · exact h2
          right
          simp only [pyLe, if_neg hyx2]
          simpa using hyx

theorem pyLe_antisymm {a b : PStr} (h1 : pyLe a b = true)
    (h2 : pyLe b a = true) : a = b := by
  induction a generalizing b with
  | nil =>
    rcases b with _ | ⟨y, ys⟩
    · rfl
    · cases h2
  | cons x xs ih =>
    rcases b with _ | ⟨y, ys⟩
    · cases h1
    · by_cases hxy : x = y
      · subst hxy
        simp only [pyLe, if_pos rfl] at h1 h2
        rw [ih h1 h2]
      · have hyx : ¬ y = x := fun hh => hxy hh.symm
        simp only [pyLe, if_neg hxy, decide_eq_true_eq] at h1
        simp only [pyLe, if_neg hyx, decide_eq_true_eq] at h2
        omega

theorem pyLe_trans {a b c : PStr} (h1 : pyLe a b = true)
    (h2 : pyLe b c = true) : pyLe a c = true := by
  induction a generalizing b c with
  | nil => rfl
  | cons x xs ih =>
    rcases b with _ | ⟨y, ys⟩
    · cases h1
    · rcases c with _ | ⟨z, zs⟩
      · cases h2
      · by_cases hxy : x = y <;> by_cases hyz : y = z
        · subst hxy; subst hyz
          simp only [pyLe, if_pos rfl] at h1 h2 ⊢
          exact ih h1 h2
        · subst hxy
          simp only [pyLe, if_neg hyz] at h2 ⊢
          exact h2
        · subst hyz
          simp only [pyLe, if_neg hxy] at h1 ⊢
          exact h1
        · simp only [pyLe, if_neg hxy, decide_eq_true_eq] at h1
          simp only [pyLe, if_neg hyz, decide_eq_true_eq] at h2
          have hxz : x.toNat < z.toNat := Nat.lt_trans h1 h2
          have hne : ¬ x = z := fun hh => by rw [hh] at hxz; omega
          simp only [pyLe, if_neg hne]
          simpa using hxz

theorem pyLe_self_append (a d : PStr) : pyLe a (a ++ d) = true := by
  induction a with
  | nil => rfl
  | cons x xs ih => simpa [pyLe] using ih

theorem pyLe_append_cons_false (a : PStr) (c : Char) (d : PStr) :
    pyLe (a ++ c :: d) a = false := by
  induction a with
  | nil => rfl
  | cons x xs ih => simpa [pyLe] using ih

theorem insertSorted_perm {α : Type _} (le : α → α → Bool) (x : α)
    (l : List α) : (insertSorted le x l).Perm (x :: l) := by
  induction l with
  | nil => exact List.Perm.refl _
  | cons y ys ih =>
    unfold insertSorted
    by_cases h : le x y = true
    · rw [if_pos h]
    · rw [if_neg h]
      exact (List.Perm.cons y ih).trans (List.Perm.swap x y ys)

theorem sortBy_perm {α : Type _} (le : α → α → Bool) (l : List α) :
    (sortBy le l).Perm l := by
  induction l with
  | nil => exact List.Perm.refl _
  | cons x xs ih =>
    exact (insertSorted_perm le x (sortBy le xs)).trans (List.Perm.cons x ih)

theorem insertSorted_sorted {α : Type _} {le : α → α → Bool}
    (htot : ∀ a b, le a b = true ∨ le b a = true)
    (htr : ∀ a b c, le a b = true → le b c = true → le a c = true)
    (x : α) {l : List α} (hl : l.Pairwise (fun a b => le a b = true)) :
    (insertSorted le x l).Pairwise (fun a b => le a b = true) := by
  induction l with
  | nil => exact List.pairwise_singleton _ _
  | cons y ys ih =>
    rcases List.pairwise_cons.mp hl with ⟨hy, hys⟩
    unfold insertSorted
    by_cases h : le x y = true
    · rw [if_pos h]
      refine List.pairwise_cons.mpr ⟨?_, hl⟩
      intro b hb
      rcases List.mem_cons.mp hb with hb | hb
      · subst hb; exact h
      · exact htr x y b h (hy b hb)
    · rw [if_neg h]
      refine List.pairwise_cons.mpr ⟨?_, ih hys⟩
      intro b hb
      have hb2 : b ∈ x :: ys := (insertSorted_perm le x ys).mem_iff.mp hb
      rcases List.mem_cons.mp hb2 with hb2 | hb2
      · rcases htot x y with hh | hh
        · exact absurd hh h
        · rw [hb2]; exact hh
      · exact hy b hb2

theorem sortBy_sorted {α : Type _} {le : α → α → Bool}
    (htot : ∀ a b, le a b = true ∨ le b a = true)
    (htr : ∀ a b c, le a b = true → le b c = true → le a c = true)
    (l : List α) : (sortBy le l).Pairwise (fun a b => le a b = true) := by
  induction l with
  | nil => exact List.Pairwise.nil
  | cons x xs ih => exact insertSorted_sorted htot htr x ih

theorem splitFirst_none_iff {sep : Char} {k : PStr} :
    splitFirst sep k = none ↔ sep ∉ k := by
  induction k with
  | nil => simp [splitFirst]
  | cons c cs ih =>
    unfold splitFirst
    by_cases h : c = sep
    · rw [if_pos h]
      simp [h]
    · rw [if_neg h]
      rcases hs : splitFirst sep cs with _ | ⟨a, b⟩
      · show (none : Option (PStr × PStr)) = none ↔ sep ∉ c :: cs
        have hcs : sep ∉ cs := ih.mp hs
        refine iff_of_true rfl ?_
        intro hm
        rcases List.mem_cons.mp hm with hm | hm
        · exact h hm.symm
        · exact hcs hm
      · show some (c :: a, b) = none ↔ sep ∉ c :: cs
        have hcs : sep ∈ cs := by
          by_contra hx
          rw [ih.mpr hx] at hs
          cases hs
        refine iff_of_false (by simp) ?_
        intro hh
        exact hh (List.mem_cons_of_mem c hcs)
  

theorem splitFirst_some {sep : Char} {k a b : PStr}
    (h : splitFirst sep k = some (a, b)) : k = a ++ sep :: b ∧ sep ∉ a := by
  induction k generalizing a b with
  | nil => cases h
  | cons c cs ih =>
    unfold splitFirst at h
    by_cases hc : c = sep
    · rw [if_pos hc] at h
      cases h
      subst hc
      exact ⟨rfl, by simp⟩
    · rw [if_neg hc] at h
      rcases hs : splitFirst sep cs with _ | ⟨a1, b1⟩
      · rw [hs] at h; cases h
      · rw [hs] at h
        have h2 : some ((c :: a1, b1) : PStr × PStr) = some (a, b) := h
        cases h2
        obtain ⟨h1, h2⟩ := ih hs
        refine ⟨by rw [List.cons_append, ← h1], ?_⟩
        intro hmem
        rcases List.mem_cons.mp hmem with hmem | hmem
        · exact hc hmem.symm
        · exact h2 hmem

theorem pysplit_splitFirst_none {sep : Char} {k : PStr}
    (h : splitFirst sep k = none) : pysplit sep k = [k] :=
  pysplit_no_sep (splitFirst_none_iff.mp h)

theorem pysplit_splitFirst_some {sep : Char} {k a b : PStr}
    (h : splitFirst sep k = some (a, b)) :
    pysplit sep k = a :: pysplit sep b := by
  obtain ⟨hk, hna⟩ := splitFirst_some h
  rw [hk, pysplit_append_sep, pysplit_no_sep hna]
  rfl

theorem pysplit_inj {sep : Char} {a b : PStr}
    (h : pysplit sep a = pysplit sep b) : a = b := by
  have ha := joinLines_pysplit sep a
  have hb := joinLines_pysplit sep b
  rw [← ha, ← hb, h]

theorem joinLines_append (sep : Char) {l1 l2 : List PStr}
    (h1 : l1 ≠ []) (h2 : l2 ≠ []) :
    joinLines sep (l1 ++ l2) = joinLines sep l1 ++ sep :: joinLines sep l2 := by
  induction l1 with
  | nil => exact absurd rfl h1
  | cons x xs ih =>
    rcases xs with _ | ⟨y, ys⟩
    · rcases l2 with _ | ⟨z, zs⟩
      · exact absurd rfl h2
      · rw [List.singleton_append, joinLines_cons₂]
        rfl
    · rw [joinLines_cons₂]
      show x ++ sep :: joinLines sep ((y :: ys) ++ l2) = _
      rw [ih (by simp)]
      simp

theorem assocLookup_assocSet (es : List (PStr × IDict)) (k x : PStr)
    (v : IDict) :
    assocLookup (assocSet es k v) x =
      if k = x then some v else assocLookup es x := by
  induction es with
  | nil => rfl
  | cons p rest ih =>
    rcases p with ⟨k1, v1⟩
    unfold assocSet
    by_cases h1 : k1 = k
    · rw [if_pos h1]
      show (if k = x then some v else assocLookup rest x) =
        if k = x then some v else assocLookup ((k1, v1) :: rest) x
      by_cases h2 : k = x
      · rw [if_pos h2, if_pos h2]
      · rw [if_neg h2, if_neg h2]
        show assocLookup rest x = if k1 = x then some v1 else assocLookup rest x
        rw [if_neg (by rw [h1]; exact h2)]
    · rw [if_neg h1]
      show (if k1 = x then some v1 else assocLookup (assocSet rest k v) x) = _
      by_cases h2 : k1 = x
      · rw [if_pos h2]
        rw [if_neg (fun hh : k = x => h1 (by rw [h2, hh]))]
        show some v1 = if k1 = x then some v1 else assocLookup rest x
        rw [if_pos h2]
      · rw [if_neg h2, ih]
        by_cases h3 : k = x
        · rw [if_pos h3, if_pos h3]
        · rw [if_neg h3, if_neg h3]
          show assocLookup rest x = if k1 = x then some v1 else assocLookup rest x
          rw [if_neg h2]

theorem msetFuel_leaf (fuel : Nat) (w k v : PStr) (sep : Char) (deep : Int) :
    msetFuel fuel (.leaf w) k v sep deep = .error (("TypeError").data) := by
  cases fuel <;> rfl

theorem msetFuel_node_nosep {sep : Char} {k : PStr} (fuel : Nat)
    (es : List (PStr × IDict)) (v : PStr)
    (hs : splitFirst sep k = none) :
    msetFuel fuel (.node es) k v sep (-1) =
      .ok (.node (assocSet es k (.leaf v))) := by
  cases fuel <;>
    · unfold msetFuel
      rw [if_neg (by decide : ¬ ((-1 : Int) = 0)), hs]

theorem msetFuel_node_sep {sep : Char} {k a b : PStr} (f : Nat)
    (es : List (PStr × IDict)) (v : PStr)
    (hs : splitFirst sep k = some (a, b)) :
    msetFuel (f + 1) (.node es) k v sep (-1) =
      match msetFuel f ((assocLookup es a).getD (.node [])) b v sep (-1) with
      | .error e => .error e
      | .ok child => .ok (.node (assocSet es a child)) := by
  conv_lhs => unfold msetFuel; rw [if_neg (by decide : ¬ ((-1 : Int) = 0)), hs]
  rfl

theorem splitFirst_some_length {sep : Char} {k a b : PStr}
    (h : splitFirst sep k = some (a, b)) :
    k.length = a.length + 1 + b.length := by
  obtain ⟨hk, _⟩ := splitFirst_some h
  rw [hk]
  simp [List.length_append]
  omega

theorem msetFuel_ok_getPath {sep : Char} :
    ∀ (fuel : Nat) (k : PStr) (dct : IDict) (v : PStr) (d' : IDict),
      k.length < fuel →
      msetFuel fuel dct k v sep (-1) = .ok d' →
      getPath d' (pysplit sep k) = some (.leaf v) := by
  intro fuel
  induction fuel with
  | zero => intro k dct v d' hf _; exact absurd hf (by omega)
  | succ f ih =>
    intro k dct v d' hf hok
    rcases dct with w | es
    · rw [msetFuel_leaf] at hok; cases hok
    · rcases hs : splitFirst sep k with _ | ⟨a, b⟩
      · rw [msetFuel_node_nosep (f + 1) es v hs] at hok
        cases hok
        rw [pysplit_splitFirst_none hs]
        show (match assocLookup (assocSet es k (.leaf v)) k with
          | none => none | some d => getPath d []) = some (.leaf v)
        rw [assocLookup_assocSet, if_pos rfl]
        rfl
      · rw [msetFuel_node_sep f es v hs] at hok
        rcases hrec : msetFuel f ((assocLookup es a).getD (.node [])) b v sep (-1)
          with e | child
        · rw [hrec] at hok; cases hok
        · rw [hrec] at hok
          have hok2 : Except.ok (IDict.node (assocSet es a child)) = Except.ok d' := hok
          cases hok2
          rw [pysplit_splitFirst_some hs]
          show (match assocLookup (assocSet es a child) a with
            | none => none | some d => getPath d (pysplit sep b)) = some (.leaf v)
          rw [assocLookup_assocSet, if_pos rfl]
          have hklen := splitFirst_some_length hs
          exact ih b _ v child (by omega) hrec

theorem msetFuel_blocked {sep : Char} :
    ∀ (fuel : Nat) (k : PStr) (dct : IDict) (v : PStr) (q r : List PStr) (w : PStr),
      k.length < fuel →
      getPath dct q = some (.leaf w) →
      pysplit sep k = q ++ r →
      r ≠ [] →
      ∃ e, msetFuel fuel dct k v sep (-1) = .error e := by
  intro fuel
  induction fuel with
  | zero => intro k dct v q r w hf _ _ _; exact absurd hf (by omega)
  | succ f ih =>
    intro k dct v q r w hf hget hsplit hr
    rcases dct with w0 | es
    · exact ⟨_, msetFuel_leaf (f + 1) w0 k v sep (-1)⟩
    · rcases q with _ | ⟨qh, q'⟩
      · have hx : some (IDict.node es) = some (IDict.leaf w) := hget
        cases hx
      · rcases hlk : assocLookup es qh with _ | d1
        · have hx : getPath (IDict.node es) (qh :: q') = none := by
            show (match assocLookup es qh with
              | none => none | some d => getPath d q') = none
            rw [hlk]
          rw [hx] at hget; cases hget
        · have hget1 : getPath d1 q' = some (.leaf w) := by
            have hx : getPath (IDict.node es) (qh :: q') = getPath d1 q' := by
              show (match assocLookup es qh with
                | none => none | some d => getPath d q') = _
              rw [hlk]
            rw [← hx]; exact hget
          rcases hs : splitFirst sep k with _ | ⟨a, b⟩
          · rw [pysplit_splitFirst_none hs, List.cons_append] at hsplit
            have h2 := (List.cons.inj hsplit).2
            rcases List.append_eq_nil.mp h2.symm with ⟨_, hrnil⟩
            exact absurd hrnil hr
          · rw [pysplit_splitFirst_some hs, List.cons_append] at hsplit
            obtain ⟨ha, hb⟩ := List.cons.inj hsplit
            have hklen := splitFirst_some_length hs
            obtain ⟨e, herr⟩ := ih b d1 v q' r w (by omega) hget1 hb hr
            refine ⟨e, ?_⟩
            rw [msetFuel_node_sep f es v hs, ha, hlk]
            show (match msetFuel f d1 b v sep (-1) with
              | Except.error e2 => Except.error e2
              | Except.ok child => Except.ok (IDict.node (assocSet es qh child)))
              = Except.error e
            rw [herr]

theorem msetFuel_ok_preserve {sep : Char} :
    ∀ (fuel : Nat) (k : PStr) (dct : IDict) (v : PStr) (d' : IDict)
      (p : List PStr),
      k.length < fuel →
      msetFuel fuel dct k v sep (-1) = .ok d' →
      ¬ (pysplit sep k <+: p) →
      ¬ (p <+: pysplit sep k) →
      getPath d' p = getPath dct p := by
  intro fuel
  induction fuel with
  | zero => intro k dct v d' p hf _ _ _; exact absurd hf (by omega)
  | succ f ih =>
    intro k dct v d' p hf hok hp1 hp2
    rcases dct with w | es
    · rw [msetFuel_leaf] at hok; cases hok
    · rcases hs : splitFirst sep k with _ | ⟨a, b⟩
      · rw [msetFuel_node_nosep (f + 1) es v hs] at hok
        cases hok
        rw [pysplit_splitFirst_none hs] at hp1 hp2
        rcases p with _ | ⟨ph, p'⟩
        · exact absurd List.nil_prefix hp2
        · by_cases hph : k = ph
          · subst hph
            exact absurd ⟨p', rfl⟩ hp1
          · show (match assocLookup (assocSet es k (.leaf v)) ph with
              | none => none | some d => getPath d p')
              = (match assocLookup es ph with
              | none => none | some d => getPath d p')
            rw [assocLookup_assocSet, if_neg hph]
      · rw [msetFuel_node_sep f es v hs] at hok
        rcases hrec : msetFuel f ((assocLookup es a).getD (.node [])) b v sep (-1)
          with e | child
        · rw [hrec] at hok; cases hok
        · rw [hrec] at hok
          have hok2 : Except.ok (IDict.node (assocSet es a child)) = Except.ok d' := hok
          cases hok2
          rw [pysplit_splitFirst_some hs] at hp1 hp2
          rcases p with _ | ⟨ph, p'⟩
          · exact absurd List.nil_prefix hp2
          · by_cases hph : a = ph
            · subst hph
              have hp1' : ¬ (pysplit sep b <+: p') := by
                intro hh
                rcases hh with ⟨t, ht⟩
                exact hp1 ⟨t, by rw [List.cons_append, ht]⟩
              have hp2' : ¬ (p' <+: pysplit sep b) := by
                intro hh
                rcases hh with ⟨t, ht⟩
                exact hp2 ⟨t, by rw [List.cons_append, ht]⟩
              have hklen := splitFirst_some_length hs
              have hrec2 := ih b _ v child p' (by omega) hrec hp1' hp2'
              rcases hlk : assocLookup es a with _ | d1
              · rw [hlk] at hrec2
                show (match assocLookup (assocSet es a child) a with
                  | none => none | some d => getPath d p')
                  = (match assocLookup es a with
                  | none => none | some d => getPath d p')
                rw [assocLookup_assocSet, if_pos rfl, hlk]
                rcases p' with _ | ⟨x, xs⟩
                · exact absurd ⟨pysplit sep b, rfl⟩ hp2
                · show getPath child (x :: xs) = (none : Option IDict)
                  rw [hrec2]
                  rfl
              · rw [hlk] at hrec2
                show (match assocLookup (assocSet es a child) a with
                  | none => none | some d => getPath d p')
                  = (match assocLookup es a with
                  | none => none | some d => getPath d p')
                rw [assocLookup_assocSet, if_pos rfl, hlk]
                exact hrec2
            · show (match assocLookup (assocSet es a child) ph with
                | none => none | some d => getPath d p')
                = (match assocLookup es ph with
                | none => none | some d => getPath d p')
              rw [assocLookup_assocSet, if_neg hph]

theorem except_error_bind {ε α β : Type} (e : ε) (f : α → Except ε β) :
    (Except.error e : Except ε α) >>= f = Except.error e := rfl

theorem except_ok_bind {ε α β : Type} (a : α) (f : α → Except ε β) :
    (Except.ok a : Except ε α) >>= f = f a := rfl

theorem foldlM_blocked {sep : Char} (dct : List (PStr × PStr)) (K suffix : PStr) :
    ∀ (B1 : List PStr) (B2 : List PStr) (d1 : IDict),
      (∀ b ∈ B1, pyLe K b = true ∧ b ≠ K) →
      (∃ w, getPath d1 (pysplit sep K) = some (.leaf w)) →
      ∃ e, List.foldlM
        (fun res k => mset res k ((lookupV dct k).getD []) sep (-1)) d1
        (B1 ++ (K ++ sep :: suffix) :: B2) = .error e := by
  intro B1
  induction B1 with
  | nil =>
    intro B2 d1 _ hleaf
    obtain ⟨w, hw⟩ := hleaf
    obtain ⟨e, herr⟩ := msetFuel_blocked ((K ++ sep :: suffix).length + 1)
      (K ++ sep :: suffix) d1 ((lookupV dct (K ++ sep :: suffix)).getD [])
      (pysplit sep K) (pysplit sep suffix) w (by omega) hw
      (pysplit_append_sep sep K suffix) (pysplit_ne_nil sep suffix)
    refine ⟨e, ?_⟩
    rw [List.nil_append, List.foldlM_cons]
    have herr2 : mset d1 (K ++ sep :: suffix)
        ((lookupV dct (K ++ sep :: suffix)).getD []) sep (-1) = .error e := herr
    simp only [herr2, except_error_bind]
  | cons b B1' ih =>
    intro B2 d1 hb hleaf
    obtain ⟨w, hw⟩ := hleaf
    have hbp := hb b (List.mem_cons_self _ _)
    rcases hFb : mset d1 b ((lookupV dct b).getD []) sep (-1) with e0 | d2
    · refine ⟨e0, ?_⟩
      rw [List.cons_append, List.foldlM_cons]
      simp only [hFb, except_error_bind]
    · have hw2 : getPath d2 (pysplit sep K) = some (.leaf w) := by
        by_cases hpre1 : pysplit sep b <+: pysplit sep K
        · rcases hpre1 with ⟨r0, hr0⟩
          rcases r0 with _ | ⟨x, xs⟩
          · rw [List.append_nil] at hr0
            exact absurd (pysplit_inj hr0) hbp.2
          · exfalso
            have hKeq : K = b ++ sep :: joinLines sep (x :: xs) := by
              have h1 := joinLines_pysplit sep K
              rw [← hr0, joinLines_append sep (pysplit_ne_nil sep b) (by simp),
                joinLines_pysplit sep b] at h1
              exact h1.symm
            have hple := hbp.1
            rw [hKeq, pyLe_append_cons_false] at hple
            cases hple
        · by_cases hpre2 : pysplit sep K <+: pysplit sep b
          · rcases hpre2 with ⟨r, hr⟩
            rcases r with _ | ⟨x, xs⟩
            · rw [List.append_nil] at hr
              refine absurd ?_ hpre1
              rw [← hr]
            · exfalso
              obtain ⟨e1, herr1⟩ := msetFuel_blocked (b.length + 1) b d1
                ((lookupV dct b).getD []) (pysplit sep K) (x :: xs) w
                (by omega) hw hr.symm (by simp)
              have hcontr : mset d1 b ((lookupV dct b).getD []) sep (-1) =
                .error e1 := herr1
              rw [hFb] at hcontr
              cases hcontr
          · have hpres := msetFuel_ok_preserve (b.length + 1) b d1
              ((lookupV dct b).getD []) d2 (pysplit sep K) (by omega) hFb
              hpre1 hpre2
            rw [hpres]
            exact hw
      obtain ⟨e, herr⟩ := ih B2 d2 (fun x hx => hb x (List.mem_cons_of_mem _ hx))
        ⟨w, hw2⟩
      refine ⟨e, ?_⟩
      rw [List.cons_append, List.foldlM_cons]
      simp only [hFb, except_ok_bind]
      exact herr

/-- Claim C5: for every flat configuration dictionary containing both a
scalar-valued key `K` and a dotted key `K ++ sep :: suffix`, inflation raises
a `TypeError`, whatever the iteration order of the input mapping: the keys
are sorted before inflation, a strict prefix sorts strictly first, so the
scalar is assigned before the dotted key and the nested assignment then runs
into the string leaf. -/
theorem inflate_dict_collision (dct : List (PStr × PStr)) (sep : Char)
    (K suffix : PStr)
    (hnodup : (dct.map Prod.fst).Nodup)
    (hK : K ∈ dct.map Prod.fst)
    (hKs : K ++ sep :: suffix ∈ dct.map Prod.fst) :
    ∃ e, inflate_dict dct sep (-1) = .error e := by
  have hperm : (sortBy pyLe (dct.map Prod.fst)).Perm (dct.map Prod.fst) :=
    sortBy_perm pyLe (dct.map Prod.fst)
  have hsorted : (sortBy pyLe (dct.map Prod.fst)).Pairwise
      (fun a b => pyLe a b = true) :=
    sortBy_sorted pyLe_total (fun a b c h1 h2 => pyLe_trans h1 h2)
      (dct.map Prod.fst)
  have hSnodup : (sortBy pyLe (dct.map Prod.fst)).Nodup := hperm.symm.nodup hnodup
  have hKS : K ∈ sortBy pyLe (dct.map Prod.fst) := hperm.mem_iff.mpr hK
  have hKsS : K ++ sep :: suffix ∈ sortBy pyLe (dct.map Prod.fst) :=
    hperm.mem_iff.mpr hKs
  have hKne : K ≠ K ++ sep :: suffix := by
    intro hh
    have hlen := congrArg List.length hh
    simp [List.length_append] at hlen
  obtain ⟨A, B, hAB⟩ := List.append_of_mem hKS
  rw [hAB] at hsorted hSnodup hKsS
  have hKsB : K ++ sep :: suffix ∈ B := by
    rcases List.mem_append.mp hKsS with hmem | hmem
    · exfalso
      have hpA := (List.pairwise_append.mp hsorted).2.2
      have hle : pyLe (K ++ sep :: suffix) K = true :=
        hpA _ hmem K (List.mem_cons_self _ _)
      exact hKne (pyLe_antisymm (pyLe_self_append K (sep :: suffix)) hle)
    · rcases List.mem_cons.mp hmem with hmem | hmem
      · exact absurd hmem.symm hKne
      · exact hmem
  obtain ⟨B1, B2, hB⟩ := List.append_of_mem hKsB
  have hsorted2 := (List.pairwise_append.mp hsorted).2.1
  have hKB : ∀ b ∈ B, pyLe K b = true := (List.pairwise_cons.mp hsorted2).1
  have hKnotB : K ∉ B := by
    have hnd : (K :: B).Nodup :=
      (List.nodup_append.mp hSnodup).2.1
    exact (List.nodup_cons.mp hnd).1
  have hKb : ∀ b ∈ B1, pyLe K b = true ∧ b ≠ K := by
    intro b hb
    have hb2 : b ∈ B := by rw [hB]; exact List.mem_append.mpr (Or.inl hb)
    refine ⟨hKB b hb2, ?_⟩
    intro hh
    rw [hh] at hb2
    exact hKnotB hb2
  unfold inflate_dict
  rw [hAB, hB, List.foldlM_append]
  rcases hA : List.foldlM
      (fun res k => mset res k ((lookupV dct k).getD []) sep (-1))
      (IDict.node []) A with eA | d0
  · exact ⟨eA, rfl⟩
  · rw [except_ok_bind, List.foldlM_cons]
    rcases hFK : mset d0 K ((lookupV dct K).getD []) sep (-1) with e0 | d1
    · exact ⟨e0, by simp only [hFK, except_error_bind]⟩
    · have hleaf : getPath d1 (pysplit sep K) =
          some (.leaf ((lookupV dct K).getD [])) :=
        msetFuel_ok_getPath (K.length + 1) K d0 ((lookupV dct K).getD []) d1
          (by omega) hFK
      obtain ⟨e, herr⟩ := foldlM_blocked dct K suffix B1 B2 d1 hKb ⟨_, hleaf⟩
      refine ⟨e, ?_⟩
      simp only [hFK, except_ok_bind]
      exact herr

/-- Witness for `inflate_dict_collision` on the docstring example
`{'section.key': '3', 'section': 'bad'}`. -/
theorem inflate_dict_collision_witness :
    ∃ e, inflate_dict
      [(("section.key").data, ("3").data), (("section").data, ("bad").data)]
      '.' (-1) = .error e :=
  inflate_dict_collision
    [(("section.key").data, ("3").data), (("section").data, ("bad").data)]
    '.' (("section").data) (("key").data)
    (by decide) (by decide) (by decide)

-- Word-wrap (claim C7): character classes and wordsep match properties

theorem isWS_spec {c : Char} (h : isWS c = true) :
    c = ' ' ∨ c = '\t' ∨ c = '\n' ∨ c = '\x0b' ∨ c = '\x0c' ∨ c = '\r' := by
  unfold isWS at h
  simp only [Bool.or_eq_true, decide_eq_true_eq] at h
  tauto

theorem isWord_not_isWS {c : Char} (h : isWord c = true) : isWS c = false := by
  rcases Bool.eq_false_or_eq_true (isWS c) with h1 | h1
  · exfalso
    rcases isWS_spec h1 with h2|h2|h2|h2|h2|h2 <;> (subst h2; revert h; decide)
  · exact h1

theorem dropWhile_head_false {α : Type} {p : α → Bool} :
    ∀ {l : List α} {c : α} {cs : List α}, l.dropWhile p = c :: cs → p c = false
  | [], c, cs, h => by cases h
  | a :: l, c, cs, h => by
    by_cases ha : p a
    · rw [List.dropWhile_cons_of_pos ha] at h
      exact dropWhile_head_false h
    · rw [List.dropWhile_cons_of_neg ha] at h
      cases h
      exact Bool.eq_false_iff.mpr ha

theorem wsMatch_props {s m rest : PStr} (h : wsMatch s = some (m, rest)) :
    s = m ++ rest ∧ m ≠ [] ∧ ∀ c ∈ m, isWS c = true := by
  rcases s with _ | ⟨c, cs⟩
  · cases h
  · have h' : (if isWS c then
        some (c :: cs.takeWhile isWS, cs.dropWhile isWS) else none) =
          some (m, rest) := h
    by_cases hc : isWS c
    · rw [if_pos hc] at h'
      obtain ⟨rfl, rfl⟩ : c :: cs.takeWhile isWS = m ∧ cs.dropWhile isWS = rest := by
        cases h'; exact ⟨rfl, rfl⟩
      refine ⟨by rw [List.cons_append, List.takeWhile_append_dropWhile], by simp, ?_⟩
      intro d hd
      rcases List.mem_cons.1 hd with rfl | hd
      · exact hc
      · exact List.mem_takeWhile_imp hd
    · rw [if_neg hc] at h'; cases h'

theorem hyMatch_props {s m rest : PStr} (h : hyMatch s = some (m, rest)) :
    s = m ++ rest ∧ m ≠ [] ∧ (∀ c ∈ m, isWS c = false) ∧ '-' ∈ m := by
  unfold hyMatch at h
  simp only [] at h
  rcases hs2 : (s.dropWhile (fun c => !isWS c && !isWord c)).dropWhile isWord
    with _ | ⟨d, _ | ⟨c0, rest0⟩⟩
  · rw [hs2] at h; cases h
  · rw [hs2] at h; cases h
  · rw [hs2] at h
    have h' : (if d = '-' ∧
        2 ≤ ((s.dropWhile (fun c => !isWS c && !isWord c)).takeWhile isWord).length ∧
        isLetterU (((s.dropWhile (fun c => !isWS c && !isWord c)).takeWhile isWord).getLastD ' ') = true ∧
        isLetterU c0 = true then
        some (s.takeWhile (fun c => !isWS c && !isWord c) ++
          (s.dropWhile (fun c => !isWS c && !isWord c)).takeWhile isWord ++ ['-'],
          c0 :: rest0)
      else none) = some (m, rest) := h
    by_cases hcond : d = '-' ∧
        2 ≤ ((s.dropWhile (fun c => !isWS c && !isWord c)).takeWhile isWord).length ∧
        isLetterU (((s.dropWhile (fun c => !isWS c && !isWord c)).takeWhile isWord).getLastD ' ') = true ∧
        isLetterU c0 = true
    · rw [if_pos hcond] at h'
      obtain ⟨rfl, rfl⟩ :
          s.takeWhile (fun c => !isWS c && !isWord c) ++
            (s.dropWhile (fun c => !isWS c && !isWord c)).takeWhile isWord ++ ['-'] = m ∧
          c0 :: rest0 = rest := by
        cases h'; exact ⟨rfl, rfl⟩
      refine ⟨?_, by simp, ?_, by simp⟩
      · have hd : s = s.takeWhile (fun c => !isWS c && !isWord c) ++
            ((s.dropWhile (fun c => !isWS c && !isWord c)).takeWhile isWord ++
             (s.dropWhile (fun c => !isWS c && !isWord c)).dropWhile isWord) := by
          rw [List.takeWhile_append_dropWhile, List.takeWhile_append_dropWhile]
        conv_lhs => rw [hd, hs2]
        rw [hcond.1]
        simp
      · intro x hx
        simp only [List.append_assoc, List.mem_append, List.mem_singleton] at hx
        rcases hx with hx | hx | hx
        · have := List.mem_takeWhile_imp hx
          simp only [Bool.and_eq_true, Bool.not_eq_true'] at this
          exact this.1
        · exact isWord_not_isWS (List.mem_takeWhile_imp hx)
        · subst hx; decide
    · rw [if_neg hcond] at h'; cases h'

theorem emMatch_props {prev : Option Char} {s m rest : PStr}
    (h : emMatch prev s = some (m, rest)) :
    s = m ++ rest ∧ m ≠ [] ∧ (∀ c ∈ m, isWS c = false) ∧ '-' ∈ m := by
  unfold emMatch at h
  rcases prev with _ | p
  · cases h
  · have h1 : (if (isWord p || p = '!' || p = '"' || p = '\'' || p = '&' ||
        p = '.' || p = ',' || p = '?') = true then
        (match s.dropWhile (fun c => c = '-') with
         | c :: _ =>
           if 2 ≤ (s.takeWhile (fun c => c = '-')).length ∧ isWord c = true then
             some (s.takeWhile (fun c => c = '-'), s.dropWhile (fun c => c = '-'))
           else none
         | [] => none)
      else none) = some (m, rest) := h
    by_cases hp : (isWord p || p = '!' || p = '"' || p = '\'' || p = '&' ||
        p = '.' || p = ',' || p = '?') = true
    · rw [if_pos hp] at h1
      rcases hrest : s.dropWhile (fun c => c = '-') with _ | ⟨c0, rest0⟩
      · rw [hrest] at h1; cases h1
      · rw [hrest] at h1
        have h2 : (if 2 ≤ (s.takeWhile (fun c => c = '-')).length ∧
            isWord c0 = true then
            some (s.takeWhile (fun c => c = '-'), c0 :: rest0)
          else none) = some (m, rest) := h1
        by_cases hcond : 2 ≤ (s.takeWhile (fun c => c = '-')).length ∧
            isWord c0 = true
        · rw [if_pos hcond] at h2
          obtain ⟨rfl, rfl⟩ : s.takeWhile (fun c => c = '-') = m ∧
              c0 :: rest0 = rest := by cases h2; exact ⟨rfl, rfl⟩
          have hall : ∀ c ∈ s.takeWhile (fun c => c = '-'), c = '-' := by
            intro x hx
            have := List.mem_takeWhile_imp hx
            exact decide_eq_true_eq.mp this
          refine ⟨?_, ?_, ?_, ?_⟩
          · conv_rhs => rw [← hrest]
            exact (List.takeWhile_append_dropWhile _ _).symm
          · intro hnil
            rw [hnil] at hcond
            simp at hcond
          · intro x hx; rw [hall x hx]; decide
          · have hne : s.takeWhile (fun c => c = '-') ≠ [] := by
              intro hnil; rw [hnil] at hcond; simp at hcond
            rcases List.exists_cons_of_ne_nil hne with ⟨a, as, hx⟩
            have ha : a = '-' :=
              hall a (by rw [hx]; exact List.mem_cons_self _ _)
            rw [hx, ha]
            exact List.mem_cons_self _ _
        · rw [if_neg hcond] at h2; cases h2
    · rw [if_neg hp] at h1; cases h1

theorem tryWordsep_props {prev : Option Char} {s m rest : PStr}
    (h : tryWordsep prev s = some (m, rest)) :
    s = m ++ rest ∧ m ≠ [] ∧
      ((∀ c ∈ m, isWS c = true) ∨ ((∀ c ∈ m, isWS c = false) ∧ '-' ∈ m)) := by
  unfold tryWordsep at h
  rcases hw : wsMatch s with _ | ⟨mw, restw⟩
  · rw [hw] at h
    have h2 : ((hyMatch s).orElse (fun _ => emMatch prev s)) = some (m, rest) := h
    rcases hy : hyMatch s with _ | ⟨mh, resth⟩
    · rw [hy] at h2
      have h3 : emMatch prev s = some (m, rest) := h2
      obtain ⟨h4, h5, h6, h7⟩ := emMatch_props h3
      exact ⟨h4, h5, Or.inr ⟨h6, h7⟩⟩
    · rw [hy] at h2
      obtain ⟨rfl, rfl⟩ : mh = m ∧ resth = rest := by
        cases h2; exact ⟨rfl, rfl⟩
      obtain ⟨h4, h5, h6, h7⟩ := hyMatch_props hy
      exact ⟨h4, h5, Or.inr ⟨h6, h7⟩⟩
  · rw [hw] at h
    obtain ⟨rfl, rfl⟩ : mw = m ∧ restw = rest := by
      cases h; exact ⟨rfl, rfl⟩
    obtain ⟨h4, h5, h6⟩ := wsMatch_props hw
    exact ⟨h4, h5, Or.inl h6⟩

theorem tryWordsep_ws_head {prev : Option Char} {c : Char} {cs : PStr}
    (h : isWS c = true) :
    tryWordsep prev (c :: cs) =
      some (c :: cs.takeWhile isWS, cs.dropWhile isWS) := by
  show ((if isWS c then some (c :: cs.takeWhile isWS, cs.dropWhile isWS)
      else none).orElse
    (fun _ => (hyMatch (c :: cs)).orElse (fun _ => emMatch prev (c :: cs)))) =
      some (c :: cs.takeWhile isWS, cs.dropWhile isWS)
  rw [if_pos h]
  rfl



theorem scanFuel_step_none {f : Nat} {prev : Option Char} {c : Char}
    {cs cur : PStr} (h : tryWordsep prev (c :: cs) = none) :
    scanFuel (f+1) prev (c :: cs) cur = scanFuel f (some c) cs (c :: cur) := by
  show (match tryWordsep prev (c :: cs) with
    | some (m, rest) => cur.reverse :: m ::
        scanFuel f (some (m.getLastD c)) rest []
    | none => scanFuel f (some c) cs (c :: cur)) = _
  rw [h]

theorem scanFuel_step_some {f : Nat} {prev : Option Char} {c : Char}
    {cs cur m rest : PStr} (h : tryWordsep prev (c :: cs) = some (m, rest)) :
    scanFuel (f+1) prev (c :: cs) cur =
      cur.reverse :: m :: scanFuel f (some (m.getLastD c)) rest [] := by
  show (match tryWordsep prev (c :: cs) with
    | some (m, rest) => cur.reverse :: m ::
        scanFuel f (some (m.getLastD c)) rest []
    | none => scanFuel f (some c) cs (c :: cur)) = _
  rw [h]

theorem tryWordsep_none_of_word {prev : Option Char} {wh : Char} {wr post : PStr}
    (hw : ∀ c ∈ wh :: wr, isWS c = false) (hhy : '-' ∉ wh :: wr)
    (hpost : post = [] ∨ ∃ qc qs, post = qc :: qs ∧ isWS qc = true) :
    tryWordsep prev ((wh :: wr) ++ post) = none := by
  rcases hm : tryWordsep prev ((wh :: wr) ++ post) with _ | ⟨m, rest⟩
  · rfl
  · exfalso
    obtain ⟨hs, hne, hdisj⟩ := tryWordsep_props hm
    rcases List.exists_cons_of_ne_nil hne with ⟨mh, mt, hm0⟩
    have hhd : mh = wh := by
      rw [hm0] at hs
      have h2 : wh :: (wr ++ post) = mh :: (mt ++ rest) := by simpa using hs
      injection h2 with h3 h4
      exact h3.symm
    rcases hdisj with hws | ⟨hnws, hdash⟩
    · have h3 : isWS mh = true := hws mh (hm0 ▸ List.mem_cons_self _ _)
      rw [hhd, hw wh (List.mem_cons_self _ _)] at h3
      cases h3
    · by_cases hlen : m.length ≤ (wh :: wr).length
      · have hmtake : m = (wh :: wr).take m.length := by
          have h1 : ((wh :: wr) ++ post).take m.length = m := by
            rw [hs]; exact List.take_left _ _
          rw [List.take_append_eq_append_take,
            Nat.sub_eq_zero_of_le hlen, List.take_zero, List.append_nil] at h1
          exact h1.symm
        exact hhy (List.take_subset _ _ (hmtake ▸ hdash))
      · push_neg at hlen
        rcases hpost with rfl | ⟨qc, qs, rfl, hqc⟩
        · have h4 := congrArg List.length hs
          simp only [List.append_nil, List.length_append] at h4
          omega
        · have hmtake : m = (wh :: wr) ++
              ((qc :: qs).take (m.length - (wh :: wr).length)) := by
            have h1 : ((wh :: wr) ++ (qc :: qs)).take m.length = m := by
              rw [hs]; exact List.take_left _ _
            rw [List.take_append_eq_append_take,
              List.take_of_length_le (by omega)] at h1
            exact h1.symm
          have hqm : qc ∈ m := by
            rw [hmtake]
            apply List.mem_append_right
            rcases hk : m.length - (wh :: wr).length with _ | k
            · omega
            · rw [List.take_succ_cons]
              exact List.mem_cons_self _ _
          have h5 := hnws qc hqm
          rw [h5] at hqc
          cases hqc

theorem scan_word_tail :
    ∀ (wrest : PStr) (fuel : Nat) (prev : Option Char) (post curAcc : PStr),
      (wrest ++ post).length < fuel →
      (∀ c ∈ wrest, isWS c = false) → '-' ∉ wrest → curAcc ≠ [] →
      (post = [] ∨ ∃ qc qs, post = qc :: qs ∧ isWS qc = true) →
      (curAcc.reverse ++ wrest) ∈ scanFuel fuel prev (wrest ++ post) curAcc := by
  intro wrest
  induction wrest with
  | nil =>
    intro fuel prev post curAcc hfuel _ _ hcur hpost
    rcases fuel with _ | f
    · exact absurd hfuel (Nat.not_lt_zero _)
    · rcases hpost with rfl | ⟨qc, qs, rfl, hqc⟩
      · show curAcc.reverse ++ [] ∈ scanFuel (f+1) prev [] curAcc
        simp [scanFuel]
      · show curAcc.reverse ++ [] ∈ scanFuel (f+1) prev (qc :: qs) curAcc
        rw [List.append_nil,
          scanFuel_step_some (tryWordsep_ws_head hqc)]
        exact List.mem_cons_self _ _
  | cons wh wr' ih =>
    intro fuel prev post curAcc hfuel hw hhy hcur hpost
    rcases fuel with _ | f
    · exact absurd hfuel (Nat.not_lt_zero _)
    · have hnone : tryWordsep prev ((wh :: wr') ++ post) = none :=
        tryWordsep_none_of_word hw hhy hpost
      have hnone' : tryWordsep prev (wh :: (wr' ++ post)) = none := hnone
      show curAcc.reverse ++ (wh :: wr') ∈
        scanFuel (f+1) prev (wh :: (wr' ++ post)) curAcc
      rw [scanFuel_step_none hnone']
      have heq : curAcc.reverse ++ (wh :: wr') =
          (wh :: curAcc).reverse ++ wr' := by simp
      rw [heq]
      exact ih f (some wh) post (wh :: curAcc)
        (by simp only [List.length_append, List.length_cons] at hfuel ⊢; omega)
        (fun c hc => hw c (List.mem_cons_of_mem _ hc))
        (fun hd => hhy (List.mem_cons_of_mem _ hd)) (by simp) hpost



theorem scan_word_mem :
    ∀ (fuel : Nat) (prev : Option Char) (pre w post cur : PStr),
      (pre ++ w ++ post).length < fuel →
      w ≠ [] → (∀ c ∈ w, isWS c = false) → '-' ∉ w →
      (pre = [] → cur = []) →
      (pre = [] ∨ ∃ pc, pre.getLast? = some pc ∧ isWS pc = true) →
      (post = [] ∨ ∃ qc qs, post = qc :: qs ∧ isWS qc = true) →
      w ∈ scanFuel fuel prev (pre ++ w ++ post) cur := by
  intro fuel
  induction fuel with
  | zero =>
    intro prev pre w post cur hfuel
    exact absurd hfuel (Nat.not_lt_zero _)
  | succ f ih =>
    intro prev pre w post cur hfuel hwne hnws hhy hcur hpre hpost
    rcases pre with _ | ⟨ph, pre'⟩
    · have hcur0 : cur = [] := hcur rfl
      subst hcur0
      rcases List.exists_cons_of_ne_nil hwne with ⟨wh, wr', rfl⟩
      have hnone : tryWordsep prev ((wh :: wr') ++ post) = none :=
        tryWordsep_none_of_word hnws hhy hpost
      have hnone' : tryWordsep prev (wh :: (wr' ++ post)) = none := hnone
      show (wh :: wr') ∈ scanFuel (f+1) prev (wh :: (wr' ++ post)) []
      rw [scanFuel_step_none hnone']
      have h2 := scan_word_tail wr' f (some wh) post [wh]
        (by simp only [List.length_append, List.length_cons] at hfuel ⊢; omega)
        (fun c hc => hnws c (List.mem_cons_of_mem _ hc))
        (fun hd => hhy (List.mem_cons_of_mem _ hd)) (by simp) hpost
      simpa using h2
    · rcases hm : tryWordsep prev ((ph :: pre') ++ w ++ post) with _ | ⟨m, rest⟩
      · -- no match: consume ph, which must not be whitespace
        have hph : isWS ph = false := by
          rcases Bool.eq_false_or_eq_true (isWS ph) with h1 | h1
          · exfalso
            have hws : tryWordsep prev (ph :: (pre' ++ w ++ post)) =
                some (ph :: (pre' ++ w ++ post).takeWhile isWS,
                  (pre' ++ w ++ post).dropWhile isWS) :=
              tryWordsep_ws_head h1
            have hm' : tryWordsep prev (ph :: (pre' ++ w ++ post)) = none := hm
            rw [hws] at hm'
            cases hm'
          · exact h1
        have hpre'ne : pre' ≠ [] := by
          intro h0
          subst h0
          rcases hpre with h1 | ⟨pc, hpc, hpcws⟩
          · exact absurd h1 (List.cons_ne_nil _ _)
          · simp only [List.getLast?_singleton, Option.some.injEq] at hpc
            subst hpc
            rw [hph] at hpcws
            cases hpcws
        have hm' : tryWordsep prev (ph :: (pre' ++ w ++ post)) = none := hm
        show w ∈ scanFuel (f+1) prev (ph :: (pre' ++ w ++ post)) cur
        rw [scanFuel_step_none hm']
        refine ih (some ph) pre' w post (ph :: cur)
          (by simp only [List.length_append, List.length_cons] at hfuel ⊢; omega)
          hwne hnws hhy (fun h0 => absurd h0 hpre'ne) ?_ hpost
        rcases hpre with h1 | ⟨pc, hpc, hpcws⟩
        · exact absurd h1 (List.cons_ne_nil _ _)
        · refine Or.inr ⟨pc, ?_, hpcws⟩
          rcases List.exists_cons_of_ne_nil hpre'ne with ⟨a, as, rfl⟩
          rw [List.getLast?_cons_cons] at hpc
          exact hpc
      · -- a match: it must end inside pre
        obtain ⟨hs, hmne, hdisj⟩ := tryWordsep_props hm
        have hs' : (ph :: pre') ++ (w ++ post) = m ++ rest := by
          rw [← List.append_assoc]; exact hs
        have hlenle : m.length ≤ (ph :: pre').length := by
          by_contra hgt
          push_neg at hgt
          rcases List.exists_cons_of_ne_nil hwne with ⟨wh, wr', hw0⟩
          have hmtake : m = (ph :: pre') ++
              ((w ++ post).take (m.length - (ph :: pre').length)) := by
            have h1 : ((ph :: pre') ++ (w ++ post)).take m.length = m := by
              rw [hs']; exact List.take_left _ _
            rw [List.take_append_eq_append_take,
              List.take_of_length_le (by omega)] at h1
            exact h1.symm
          have hwh : wh ∈ m := by
            rw [hmtake]
            apply List.mem_append_right
            rcases hk : m.length - (ph :: pre').length with _ | k
            · omega
            · rw [hw0, List.cons_append, List.take_succ_cons]
              exact List.mem_cons_self _ _
          rcases hdisj with hws | ⟨hnwsm, hdash⟩
          · have h3 := hws wh hwh
            rw [hnws wh (hw0 ▸ List.mem_cons_self _ _)] at h3
            cases h3
          · rcases hpre with h1 | ⟨pc, hpc, hpcws⟩
            · exact absurd h1 (List.cons_ne_nil _ _)
            · have hpcm : pc ∈ m := by
                have hpcpre : pc ∈ ph :: pre' := List.mem_of_mem_getLast? hpc
                have : ph :: pre' ⊆ m := by
                  intro x hx
                  rw [hmtake]
                  exact List.mem_append_left _ hx
                exact this hpcpre
              have h3 := hnwsm pc hpcm
              rw [h3] at hpcws
              cases hpcws
        have hrest : rest = (ph :: pre').drop m.length ++ (w ++ post) := by
          have h1 : ((ph :: pre') ++ (w ++ post)).drop m.length = rest := by
            rw [hs']; exact List.drop_left _ _
          rw [List.drop_append_eq_append_drop,
            Nat.sub_eq_zero_of_le hlenle, List.drop_zero] at h1
          exact h1.symm
        have hm' : tryWordsep prev (ph :: (pre' ++ w ++ post)) = some (m, rest) :=
          hm
        show w ∈ scanFuel (f+1) prev (ph :: (pre' ++ w ++ post)) cur
        rw [scanFuel_step_some hm']
        apply List.mem_cons_of_mem
        apply List.mem_cons_of_mem
        have hrest' : rest = (ph :: pre').drop m.length ++ w ++ post := by
          rw [hrest, List.append_assoc]
        have hfnew : ((ph :: pre').drop m.length ++ w ++ post).length < f := by
          have hlm := congrArg List.length hs'
          simp only [List.length_append, List.length_cons] at hlm hfuel ⊢
          have hmp : 0 < m.length := List.length_pos.mpr hmne
          have hdl : ((ph :: pre').drop m.length).length =
              (ph :: pre').length - m.length := List.length_drop _ _
          simp only [List.length_cons] at hdl
          omega
        have := ih (some (m.getLastD ph)) ((ph :: pre').drop m.length) w post []
          hfnew hwne hnws hhy (fun _ => rfl) ?_ hpost
        · rw [hrest']
          exact this
        · by_cases hdn : (ph :: pre').drop m.length = []
          · exact Or.inl hdn
          · rcases hpre with h1 | ⟨pc, hpc, hpcws⟩
            · exact absurd h1 (List.cons_ne_nil _ _)
            · refine Or.inr ⟨pc, ?_, hpcws⟩
              have h2 : (ph :: pre').getLast? =
                  ((ph :: pre').take m.length ++ (ph :: pre').drop m.length).getLast? := by
                rw [List.take_append_drop]
              rw [List.getLast?_append_of_ne_nil _ hdn] at h2
              rw [← h2]
              exact hpc

theorem word_mem_chunks {s w pre post : PStr}
    (hs : s = pre ++ w ++ post) (hwne : w ≠ [])
    (hnws : ∀ c ∈ w, isWS c = false) (hhy : '-' ∉ w)
    (hpre : pre = [] ∨ ∃ pc, pre.getLast? = some pc ∧ isWS pc = true)
    (hpost : post = [] ∨ ∃ qc qs, post = qc :: qs ∧ isWS qc = true) :
    w ∈ wordsepChunks s := by
  unfold wordsepChunks
  apply List.mem_filter.mpr
  refine ⟨?_, ?_⟩
  · subst hs
    exact scan_word_mem ((pre ++ w ++ post).length + 1) none pre w post []
      (Nat.lt_succ_self _) hwne hnws hhy (fun _ => rfl) hpre hpost
  · rcases w with _ | ⟨a, l⟩
    · exact absurd rfl hwne
    · rfl



theorem pyWordsFuel_congr :
    ∀ (f1 f2 : Nat) (s : PStr), s.length < f1 → s.length < f2 →
      pyWordsFuel f1 s = pyWordsFuel f2 s := by
  intro f1
  induction f1 with
  | zero =>
    intro f2 s h1 _
    exact absurd h1 (Nat.not_lt_zero _)
  | succ g ih =>
    intro f2 s h1 h2
    rcases f2 with _ | g2
    · exact absurd h2 (Nat.not_lt_zero _)
    · rcases s with _ | ⟨c, cs⟩
      · rfl
      · show (if isWS c then pyWordsFuel g cs
          else (c :: cs.takeWhile (fun d => !isWS d)) ::
            pyWordsFuel g (cs.dropWhile (fun d => !isWS d))) =
          (if isWS c then pyWordsFuel g2 cs
          else (c :: cs.takeWhile (fun d => !isWS d)) ::
            pyWordsFuel g2 (cs.dropWhile (fun d => !isWS d)))
        have hdlen := (List.dropWhile_sublist (fun d => !isWS d) (l := cs)).length_le
        simp only [List.length_cons] at h1 h2
        by_cases hc : isWS c
        · rw [if_pos hc, if_pos hc]
          exact ih g2 cs (by omega) (by omega)
        · rw [if_neg hc, if_neg hc]
          congr 1
          exact ih g2 _ (by omega) (by omega)

theorem pyWords_cons_ws {c : Char} (h : isWS c = true) (cs : PStr) :
    pyWords (c :: cs) = pyWords cs := by
  show pyWordsFuel ((c :: cs).length + 1) (c :: cs) =
    pyWordsFuel (cs.length + 1) cs
  have h1 : pyWordsFuel ((c :: cs).length + 1) (c :: cs) =
      (if isWS c then pyWordsFuel ((c :: cs).length) cs
       else (c :: cs.takeWhile (fun d => !isWS d)) ::
         pyWordsFuel ((c :: cs).length) (cs.dropWhile (fun d => !isWS d))) := rfl
  rw [h1, if_pos h]
  exact pyWordsFuel_congr _ _ _
    (by simp only [List.length_cons]; omega) (Nat.lt_succ_self _)

theorem pyWords_cons_not_ws {c : Char} (h : isWS c = false) (cs : PStr) :
    pyWords (c :: cs) = (c :: cs.takeWhile (fun d => !isWS d)) ::
      pyWords (cs.dropWhile (fun d => !isWS d)) := by
  show pyWordsFuel ((c :: cs).length + 1) (c :: cs) = _
  have h1 : pyWordsFuel ((c :: cs).length + 1) (c :: cs) =
      (if isWS c then pyWordsFuel ((c :: cs).length) cs
       else (c :: cs.takeWhile (fun d => !isWS d)) ::
         pyWordsFuel ((c :: cs).length) (cs.dropWhile (fun d => !isWS d))) := rfl
  rw [h1, if_neg (by simp [h])]
  congr 1
  have hdlen := (List.dropWhile_sublist (fun d => !isWS d) (l := cs)).length_le
  exact pyWordsFuel_congr _ _ _
    (by simp only [List.length_cons]; omega) (Nat.lt_succ_self _)

theorem takeWhile_append_all {p : Char → Bool} :
    ∀ {l1 : PStr} (l2 : PStr), (∀ c ∈ l1, p c = true) →
      (l1 ++ l2).takeWhile p = l1 ++ l2.takeWhile p
  | [], _, _ => rfl
  | a :: l1, l2, h => by
    have ha : p a = true := h a (List.mem_cons_self _ _)
    rw [List.cons_append, List.takeWhile_cons_of_pos ha,
      takeWhile_append_all l2 (fun c hc => h c (List.mem_cons_of_mem _ hc))]
    rfl

theorem dropWhile_append_all {p : Char → Bool} :
    ∀ {l1 : PStr} (l2 : PStr), (∀ c ∈ l1, p c = true) →
      (l1 ++ l2).dropWhile p = l2.dropWhile p
  | [], _, _ => rfl
  | a :: l1, l2, h => by
    have ha : p a = true := h a (List.mem_cons_self _ _)
    rw [List.cons_append, List.dropWhile_cons_of_pos ha,
      dropWhile_append_all l2 (fun c hc => h c (List.mem_cons_of_mem _ hc))]

theorem pyWords_decomp :
    ∀ (n : Nat) (s w : PStr), s.length ≤ n → w ∈ pyWords s →
      ∃ pre post, s = pre ++ w ++ post ∧ w ≠ [] ∧
        (∀ c ∈ w, isWS c = false) ∧
        (pre = [] ∨ ∃ pc, pre.getLast? = some pc ∧ isWS pc = true) ∧
        (post = [] ∨ ∃ qc qs, post = qc :: qs ∧ isWS qc = true) := by
  intro n
  induction n with
  | zero =>
    intro s w hlen hw
    rcases s with _ | ⟨c, cs⟩
    · rw [show pyWords [] = [] from rfl] at hw
      cases hw
    · simp at hlen
  | succ n ih =>
    intro s w hlen hw
    rcases s with _ | ⟨c, cs⟩
    · rw [show pyWords [] = [] from rfl] at hw
      cases hw
    · have hc' : isWS c = true ∨ isWS c = false :=
        Bool.eq_false_or_eq_true (isWS c)
      rcases hc' with hc | hc
      · rw [pyWords_cons_ws hc] at hw
        obtain ⟨pre, post, h1, h2, h3, h4, h5⟩ := ih cs w
          (by simp only [List.length_cons] at hlen; omega) hw
        refine ⟨c :: pre, post, by rw [h1]; rfl, h2, h3, ?_, h5⟩
        refine Or.inr ?_
        rcases h4 with rfl | ⟨pc, hpc, hpcws⟩
        · exact ⟨c, by simp, hc⟩
        · refine ⟨pc, ?_, hpcws⟩
          rcases pre with _ | ⟨p0, pre0⟩
          · simp at hpc
          · rw [List.getLast?_cons_cons]
            exact hpc
      · rw [pyWords_cons_not_ws hc] at hw
        rcases List.mem_cons.1 hw with rfl | hw2
        · refine ⟨[], cs.dropWhile (fun d => !isWS d), ?_, by simp,
            ?_, Or.inl rfl, ?_⟩
          · show c :: cs = c :: (cs.takeWhile (fun d => !isWS d) ++
              cs.dropWhile (fun d => !isWS d))
            rw [List.takeWhile_append_dropWhile]
          · intro x hx
            rcases List.mem_cons.1 hx with rfl | hx2
            · exact hc
            · have := List.mem_takeWhile_imp hx2
              simpa using this
          · rcases hdW : cs.dropWhile (fun d => !isWS d) with _ | ⟨q, qs⟩
            · exact Or.inl rfl
            · have hq := dropWhile_head_false hdW
              exact Or.inr ⟨q, qs, rfl, by simpa using hq⟩
        · have hdlen : (cs.dropWhile (fun d => !isWS d)).length ≤ n := by
            have := (List.dropWhile_sublist (fun d => !isWS d) (l := cs)).length_le
            simp only [List.length_cons] at hlen
            omega
          obtain ⟨pre, post, h1, h2, h3, h4, h5⟩ := ih _ w hdlen hw2
          refine ⟨c :: (cs.takeWhile (fun d => !isWS d) ++ pre), post,
            ?_, h2, h3, ?_, h5⟩
          · have hcs : cs = cs.takeWhile (fun d => !isWS d) ++
                (pre ++ w ++ post) := by
              rw [← h1, List.takeWhile_append_dropWhile]
            conv_lhs => rw [hcs]
            simp [List.append_assoc]
          · have hprene : pre ≠ [] := by
              intro h0
              subst h0
              rcases List.exists_cons_of_ne_nil h2 with ⟨wh, wt, rfl⟩
              simp only [List.nil_append] at h1
              have hh := dropWhile_head_false
                (show cs.dropWhile (fun d => !isWS d) = wh :: (wt ++ post) by
                  rw [h1]; rfl)
              have h6 := h3 wh (List.mem_cons_self _ _)
              simp only [Bool.not_eq_false'] at hh
              rw [h6] at hh
              cases hh
            rcases h4 with h0 | ⟨pc, hpc, hpcws⟩
            · exact absurd h0 hprene
            · refine Or.inr ⟨pc, ?_, hpcws⟩
              rw [show (c :: (cs.takeWhile (fun d => !isWS d) ++ pre)) =
                  (c :: cs.takeWhile (fun d => !isWS d)) ++ pre from rfl,
                List.getLast?_append_of_ne_nil _ hprene]
              exact hpc



theorem pyWords_replicate_space (n : Nat) (s : PStr) :
    pyWords (List.replicate n ' ' ++ s) = pyWords s := by
  induction n with
  | zero => rfl
  | succ k ih =>
    rw [List.replicate_succ, List.cons_append, pyWords_cons_ws (by decide)]
    exact ih

theorem pyWords_map {f : Char → Char} (hf : ∀ c, isWS (f c) = isWS c)
    (hid : ∀ c, isWS c = false → f c = c) :
    ∀ (n : Nat) (s : PStr), s.length ≤ n → pyWords (s.map f) = pyWords s := by
  intro n
  induction n with
  | zero =>
    intro s hlen
    rcases s with _ | ⟨c, cs⟩
    · rfl
    · simp at hlen
  | succ n ih =>
    intro s hlen
    rcases s with _ | ⟨c, cs⟩
    · rfl
    · simp only [List.length_cons] at hlen
      rcases Bool.eq_false_or_eq_true (isWS c) with hc | hc
      · rw [List.map_cons, pyWords_cons_ws (by rw [hf]; exact hc),
          pyWords_cons_ws hc]
        exact ih cs (by omega)
      · rw [List.map_cons, pyWords_cons_not_ws (by rw [hf]; exact hc),
          pyWords_cons_not_ws hc, hid c hc]
        have hP : (fun d => !isWS d) ∘ f = (fun d => !isWS d) := by
          funext d
          simp [Function.comp, hf]
        rw [List.takeWhile_map, List.dropWhile_map, hP]
        have htW : ∀ x ∈ cs.takeWhile (fun d => !isWS d), f x = x := by
          intro x hx
          have := List.mem_takeWhile_imp hx
          exact hid x (by simpa using this)
        have htW2 : (cs.takeWhile (fun d => !isWS d)).map f =
            cs.takeWhile (fun d => !isWS d) := by
          calc (cs.takeWhile (fun d => !isWS d)).map f
              = (cs.takeWhile (fun d => !isWS d)).map id :=
                List.map_congr_left htW
            _ = _ := List.map_id _
        rw [htW2]
        congr 1
        have hdlen := (List.dropWhile_sublist (fun d => !isWS d) (l := cs)).length_le
        exact ih _ (by omega)

theorem expandtabs_word :
    ∀ (wpart : PStr) (col : Nat) (r : PStr), (∀ c ∈ wpart, isWS c = false) →
      expandtabs col (wpart ++ r) = wpart ++ expandtabs (col + wpart.length) r
  | [], col, r, _ => by simp
  | a :: w', col, r, h => by
    have ha : isWS a = false := h a (List.mem_cons_self _ _)
    have hat : ¬ a = '\t' := by rintro rfl; exact absurd ha (by decide)
    have hanr : ¬ (a = '\n' ∨ a = '\r') := by
      rintro (rfl | rfl) <;> exact absurd ha (by decide)
    show (if a = '\t' then
        List.replicate (8 - col % 8) ' ' ++
          expandtabs (col + (8 - col % 8)) (w' ++ r)
      else if a = '\n' ∨ a = '\r' then a :: expandtabs 0 (w' ++ r)
      else a :: expandtabs (col + 1) (w' ++ r)) = _
    rw [if_neg hat, if_neg hanr,
      expandtabs_word w' (col + 1) r (fun c hc => h c (List.mem_cons_of_mem _ hc))]
    simp only [List.cons_append, List.length_cons]
    rw [show col + 1 + w'.length = col + (w'.length + 1) from by omega]

theorem expandtabs_ws_head (col : Nat) (qc : Char) (qs : PStr)
    (hqc : isWS qc = true) :
    ∃ qc' qs', expandtabs col (qc :: qs) = qc' :: qs' ∧ isWS qc' = true := by
  by_cases ht : qc = '\t'
  · subst ht
    have he : expandtabs col ('\t' :: qs) =
        List.replicate (8 - col % 8) ' ' ++
          expandtabs (col + (8 - col % 8)) qs := by
      show (if ('\t' : Char) = '\t' then
          List.replicate (8 - col % 8) ' ' ++
            expandtabs (col + (8 - col % 8)) qs
        else if ('\t' : Char) = '\n' ∨ ('\t' : Char) = '\r' then
          '\t' :: expandtabs 0 qs
        else '\t' :: expandtabs (col + 1) qs) = _
      rw [if_pos rfl]
    obtain ⟨k', hk'⟩ : ∃ k', 8 - col % 8 = k' + 1 :=
      ⟨8 - col % 8 - 1, by omega⟩
    refine ⟨' ', List.replicate k' ' ' ++
      expandtabs (col + (8 - col % 8)) qs, ?_, by decide⟩
    rw [he, hk', List.replicate_succ]
    rfl
  · by_cases hnr : qc = '\n' ∨ qc = '\r'
    · refine ⟨qc, expandtabs 0 qs, ?_, hqc⟩
      show (if qc = '\t' then
          List.replicate (8 - col % 8) ' ' ++
            expandtabs (col + (8 - col % 8)) qs
        else if qc = '\n' ∨ qc = '\r' then qc :: expandtabs 0 qs
        else qc :: expandtabs (col + 1) qs) = _
      rw [if_neg ht, if_pos hnr]
    · refine ⟨qc, expandtabs (col + 1) qs, ?_, hqc⟩
      show (if qc = '\t' then
          List.replicate (8 - col % 8) ' ' ++
            expandtabs (col + (8 - col % 8)) qs
        else if qc = '\n' ∨ qc = '\r' then qc :: expandtabs 0 qs
        else qc :: expandtabs (col + 1) qs) = _
      rw [if_neg ht, if_neg hnr]

theorem pyWords_expandtabs :
    ∀ (n : Nat) (s : PStr) (col : Nat), s.length ≤ n →
      pyWords (expandtabs col s) = pyWords s := by
  intro n
  induction n with
  | zero =>
    intro s col hlen
    rcases s with _ | ⟨c, cs⟩
    · rfl
    · simp at hlen
  | succ n ih =>
    intro s col hlen
    rcases s with _ | ⟨c, cs⟩
    · rfl
    · simp only [List.length_cons] at hlen
      by_cases ht : c = '\t'
      · subst ht
        have he : expandtabs col ('\t' :: cs) =
            List.replicate (8 - col % 8) ' ' ++
              expandtabs (col + (8 - col % 8)) cs := by
          show (if ('\t' : Char) = '\t' then
              List.replicate (8 - col % 8) ' ' ++
                expandtabs (col + (8 - col % 8)) cs
            else if ('\t' : Char) = '\n' ∨ ('\t' : Char) = '\r' then
              '\t' :: expandtabs 0 cs
            else '\t' :: expandtabs (col + 1) cs) = _
          rw [if_pos rfl]
        rw [he, pyWords_replicate_space, ih cs _ (by omega),
          pyWords_cons_ws (by decide)]
      · have he : expandtabs col (c :: cs) =
            (if c = '\n' ∨ c = '\r' then c :: expandtabs 0 cs
             else c :: expandtabs (col + 1) cs) := by
          show (if c = '\t' then
              List.replicate (8 - col % 8) ' ' ++
                expandtabs (col + (8 - col % 8)) cs
            else if c = '\n' ∨ c = '\r' then c :: expandtabs 0 cs
            else c :: expandtabs (col + 1) cs) = _
          rw [if_neg ht]
        by_cases hnr : c = '\n' ∨ c = '\r'
        · rw [he, if_pos hnr]
          have hcws : isWS c = true := by
            rcases hnr with rfl | rfl <;> decide
          rw [pyWords_cons_ws hcws, pyWords_cons_ws hcws, ih cs _ (by omega)]
        · rw [he, if_neg hnr]
          rcases Bool.eq_false_or_eq_true (isWS c) with hcw | hcw
          · rw [pyWords_cons_ws hcw, pyWords_cons_ws hcw, ih cs _ (by omega)]
          · rw [pyWords_cons_not_ws hcw, pyWords_cons_not_ws hcw]
            have hsplit : cs = cs.takeWhile (fun d => !isWS d) ++
                cs.dropWhile (fun d => !isWS d) :=
              (List.takeWhile_append_dropWhile _ _).symm
            have htw : ∀ x ∈ cs.takeWhile (fun d => !isWS d), isWS x = false := by
              intro x hx
              have := List.mem_takeWhile_imp hx
              simpa using this
            have hexp : expandtabs (col + 1) cs =
                cs.takeWhile (fun d => !isWS d) ++
                  expandtabs (col + 1 + (cs.takeWhile (fun d => !isWS d)).length)
                    (cs.dropWhile (fun d => !isWS d)) := by
              conv_lhs => rw [hsplit]
              exact expandtabs_word _ _ _ htw
            have htP : ∀ x ∈ cs.takeWhile (fun d => !isWS d),
                (fun d => !isWS d) x = true := by
              intro x hx
              simp [htw x hx]
            rw [hexp, takeWhile_append_all _ htP, dropWhile_append_all _ htP]
            rcases hdW : cs.dropWhile (fun d => !isWS d) with _ | ⟨qc, qs⟩
            · show (c :: (cs.takeWhile (fun d => !isWS d) ++ ([] : PStr))) ::
                pyWords [] = (c :: cs.takeWhile (fun d => !isWS d)) :: pyWords []
              rw [List.append_nil]
            · have hqc : isWS qc = true := by
                simpa using dropWhile_head_false hdW
              obtain ⟨qc', qs', hX, hqc'⟩ := expandtabs_ws_head
                (col + 1 + (cs.takeWhile (fun d => !isWS d)).length) qc qs hqc
              rw [hX, List.takeWhile_cons_of_neg (by simp [hqc']),
                List.dropWhile_cons_of_neg (by simp [hqc']), List.append_nil]
              congr 1
              rw [← hX]
              have hdlen :=
                (List.dropWhile_sublist (fun d => !isWS d) (l := cs)).length_le
              rw [hdW] at hdlen
              simp only [List.length_cons] at hdlen
              exact ih _ _ (by simp only [List.length_cons]; omega)

theorem pyWords_munge (text : PStr) : pyWords (munge text) = pyWords text := by
  unfold munge
  rw [pyWords_map (f := fun c => if isWS c then ' ' else c)
    (fun c => by
      by_cases h : isWS c
      · show isWS (if isWS c then ' ' else c) = isWS c
        rw [if_pos h, h]
        decide
      · show isWS (if isWS c then ' ' else c) = isWS c
        rw [if_neg h])
    (fun c h => by
      show (if isWS c then ' ' else c) = c
      simp [h])
    (expandtabs 0 text).length _ (le_refl _)]
  exact pyWords_expandtabs text.length text 0 (le_refl _)



theorem greedyTake_concat (width : Nat) :
    ∀ (n : Nat) (l : List PStr),
      (greedyTake width n l).1 ++ (greedyTake width n l).2 = l
  | _, [] => rfl
  | n, c :: cs => by
    by_cases h : n + c.length ≤ width
    · have he : greedyTake width n (c :: cs) =
          (c :: (greedyTake width (n + c.length) cs).1,
            (greedyTake width (n + c.length) cs).2) := by
        show (if n + c.length ≤ width then
            (c :: (greedyTake width (n + c.length) cs).1,
              (greedyTake width (n + c.length) cs).2)
          else ([], c :: cs)) = _
        rw [if_pos h]
      rw [he]
      show c :: ((greedyTake width (n + c.length) cs).1 ++
        (greedyTake width (n + c.length) cs).2) = c :: cs
      rw [greedyTake_concat width (n + c.length) cs]
    · have he : greedyTake width n (c :: cs) = ([], c :: cs) := by
        show (if n + c.length ≤ width then
            (c :: (greedyTake width (n + c.length) cs).1,
              (greedyTake width (n + c.length) cs).2)
          else ([], c :: cs)) = _
        rw [if_neg h]
      rw [he]
      rfl

theorem greedyTake_nil_head {width n : Nat} {c : PStr} {cs : List PStr}
    (h : (greedyTake width n (c :: cs)).1 = []) : width < n + c.length := by
  by_cases hle : n + c.length ≤ width
  · exfalso
    have he : greedyTake width n (c :: cs) =
        (c :: (greedyTake width (n + c.length) cs).1,
          (greedyTake width (n + c.length) cs).2) := by
      show (if n + c.length ≤ width then
          (c :: (greedyTake width (n + c.length) cs).1,
            (greedyTake width (n + c.length) cs).2)
        else ([], c :: cs)) = _
      rw [if_pos hle]
    rw [he] at h
    cases h
  · omega

theorem chunksMeasure_append (a b : List PStr) :
    chunksMeasure (a ++ b) = chunksMeasure a + chunksMeasure b := by
  unfold chunksMeasure
  rw [List.map_append, List.sum_append]

theorem chunksMeasure_cons (c : PStr) (cs : List PStr) :
    chunksMeasure (c :: cs) = c.length + 1 + chunksMeasure cs := by
  unfold chunksMeasure
  rw [List.map_cons, List.sum_cons]

theorem handleLongWord_pos {width : Nat} {taken : List PStr} {r : PStr}
    {rs : List PStr} (h : width < r.length) :
    handleLongWord width taken (r :: rs) =
      (taken ++ [r.take (if width < 1 then 1 else
          width - (taken.map List.length).sum)],
        r.drop (if width < 1 then 1 else
          width - (taken.map List.length).sum) :: rs) := by
  show (if width < r.length then
      (taken ++ [r.take (if width < 1 then 1 else
          width - (taken.map List.length).sum)],
        r.drop (if width < 1 then 1 else
          width - (taken.map List.length).sum) :: rs)
    else (taken, r :: rs)) = _
  rw [if_pos h]

theorem handleLongWord_neg {width : Nat} {taken : List PStr} {r : PStr}
    {rs : List PStr} (h : ¬ width < r.length) :
    handleLongWord width taken (r :: rs) = (taken, r :: rs) := by
  show (if width < r.length then
      (taken ++ [r.take (if width < 1 then 1 else
          width - (taken.map List.length).sum)],
        r.drop (if width < 1 then 1 else
          width - (taken.map List.length).sum) :: rs)
    else (taken, r :: rs)) = _
  rw [if_neg h]

theorem handleLongWord_measure (width : Nat) (taken rest : List PStr) :
    chunksMeasure (handleLongWord width taken rest).2 ≤ chunksMeasure rest := by
  rcases rest with _ | ⟨r, rs⟩
  · exact le_refl _
  · by_cases h : width < r.length
    · rw [handleLongWord_pos h]
      show chunksMeasure (r.drop (if width < 1 then 1 else
          width - (taken.map List.length).sum) :: rs) ≤ chunksMeasure (r :: rs)
      rw [chunksMeasure_cons, chunksMeasure_cons]
      have h2 : (r.drop (if width < 1 then 1 else
          width - (taken.map List.length).sum)).length ≤ r.length := by
        rw [List.length_drop]
        omega
      omega
    · rw [handleLongWord_neg h]

theorem handleLongWord_fst_mem {width : Nat} {taken rest : List PStr} {w : PStr}
    (h : w ∈ taken) : w ∈ (handleLongWord width taken rest).1 := by
  rcases rest with _ | ⟨r, rs⟩
  · exact h
  · by_cases hw : width < r.length
    · rw [handleLongWord_pos hw]
      exact List.mem_append_left _ h
    · rw [handleLongWord_neg hw]
      exact h

theorem handleLongWord_rest_mem {width : Nat} {taken rest : List PStr} {w : PStr}
    (h : w ∈ rest) (hlen : w.length ≤ width) :
    w ∈ (handleLongWord width taken rest).2 := by
  rcases rest with _ | ⟨r, rs⟩
  · cases h
  · by_cases hw : width < r.length
    · rw [handleLongWord_pos hw]
      rcases List.mem_cons.1 h with rfl | h2
      · exact absurd hlen (by omega)
      · exact List.mem_cons_of_mem _ h2
    · rw [handleLongWord_neg hw]
      exact h

theorem dropLeadingBlank_mem {hasLines : Bool} {chunks : List PStr} {w : PStr}
    (hmem : w ∈ chunks) (hblank : w.all isWS = false) :
    w ∈ dropLeadingBlank hasLines chunks := by
  rcases chunks with _ | ⟨c, cs⟩
  · cases hmem
  · show w ∈ (if hasLines && c.all isWS then cs else c :: cs)
    by_cases h : hasLines && c.all isWS
    · rw [if_pos h]
      rcases List.mem_cons.1 hmem with rfl | h2
      · exfalso
        rw [Bool.and_eq_true, hblank] at h
        exact absurd h.2 (by simp)
      · exact h2
    · rw [if_neg h]
      exact hmem

theorem dropLeadingBlank_cases (hasLines : Bool) (c : PStr) (cs : List PStr) :
    dropLeadingBlank hasLines (c :: cs) = c :: cs ∨
      dropLeadingBlank hasLines (c :: cs) = cs := by
  have he : dropLeadingBlank hasLines (c :: cs) =
      (if hasLines && c.all isWS then cs else c :: cs) := rfl
  rw [he]
  by_cases h : hasLines && c.all isWS
  · rw [if_pos h]
    exact Or.inr rfl
  · rw [if_neg h]
    exact Or.inl rfl

theorem dropTrailingBlank_mem {cur_line : List PStr} {w : PStr}
    (hmem : w ∈ cur_line) (hblank : w.all isWS = false) :
    w ∈ dropTrailingBlank cur_line := by
  unfold dropTrailingBlank
  rcases hg : cur_line.getLast? with _ | l
  · exact hmem
  · show w ∈ (if l.all isWS then cur_line.dropLast else cur_line)
    by_cases h : l.all isWS
    · rw [if_pos h]
      have hne : cur_line ≠ [] := by
        intro h0
        rw [h0] at hg
        cases hg
      have hgl : l = cur_line.getLast hne := by
        have h5 := List.getLast?_eq_getLast cur_line hne
        rw [hg] at h5
        exact Option.some.inj h5
      rw [← List.dropLast_append_getLast hne] at hmem
      rcases List.mem_append.1 hmem with h2 | h2
      · exact h2
      · exfalso
        rcases List.mem_singleton.1 h2 with rfl
        rw [← hgl] at hblank
        rw [h] at hblank
        cases hblank
    · rw [if_neg h]
      exact hmem



theorem wrapStep_snd (width : Nat) (hasLines : Bool) (chunks : List PStr) :
    (wrapStep width hasLines chunks).2 =
      (handleLongWord width
        (greedyTake width 0 (dropLeadingBlank hasLines chunks)).1
        (greedyTake width 0 (dropLeadingBlank hasLines chunks)).2).2 := rfl

theorem wrapStep_fst (width : Nat) (hasLines : Bool) (chunks : List PStr) :
    (wrapStep width hasLines chunks).1 =
      (if dropTrailingBlank (handleLongWord width
          (greedyTake width 0 (dropLeadingBlank hasLines chunks)).1
          (greedyTake width 0 (dropLeadingBlank hasLines chunks)).2).1 ≠ [] then
        some (dropTrailingBlank (handleLongWord width
          (greedyTake width 0 (dropLeadingBlank hasLines chunks)).1
          (greedyTake width 0 (dropLeadingBlank hasLines chunks)).2).1).flatten
      else none) := rfl

theorem wrapStep_dichotomy {width : Nat} {hasLines : Bool} {chunks : List PStr}
    {w : PStr} (hmem : w ∈ chunks) (hwne : w ≠ [])
    (hnws : ∀ c ∈ w, isWS c = false) (hlen : w.length ≤ width) :
    (∃ l, (wrapStep width hasLines chunks).1 = some l ∧ w <:+: l) ∨
      w ∈ (wrapStep width hasLines chunks).2 := by
  have hblank : w.all isWS = false := by
    rcases List.exists_cons_of_ne_nil hwne with ⟨wh, wt, rfl⟩
    rw [List.all_cons, hnws wh (List.mem_cons_self _ _)]
    rfl
  have h1 : w ∈ dropLeadingBlank hasLines chunks :=
    dropLeadingBlank_mem hmem hblank
  rw [← greedyTake_concat width 0 (dropLeadingBlank hasLines chunks)] at h1
  rcases List.mem_append.1 h1 with htk | hrs
  · left
    have h2 : w ∈ dropTrailingBlank (handleLongWord width
        (greedyTake width 0 (dropLeadingBlank hasLines chunks)).1
        (greedyTake width 0 (dropLeadingBlank hasLines chunks)).2).1 :=
      dropTrailingBlank_mem (handleLongWord_fst_mem htk) hblank
    have hne2 := List.ne_nil_of_mem h2
    refine ⟨(dropTrailingBlank (handleLongWord width
        (greedyTake width 0 (dropLeadingBlank hasLines chunks)).1
        (greedyTake width 0 (dropLeadingBlank hasLines chunks)).2).1).flatten,
      ?_, ?_⟩
    · rw [wrapStep_fst, if_pos hne2]
    · exact List.infix_of_mem_flatten h2
  · right
    rw [wrapStep_snd]
    exact handleLongWord_rest_mem hrs hlen

theorem wrapTail_measure_le (width : Nat) (chunks1 : List PStr) :
    chunksMeasure (handleLongWord width (greedyTake width 0 chunks1).1
      (greedyTake width 0 chunks1).2).2 ≤ chunksMeasure chunks1 := by
  have h2 : chunksMeasure (greedyTake width 0 chunks1).2 ≤
      chunksMeasure chunks1 := by
    conv_rhs => rw [← greedyTake_concat width 0 chunks1]
    rw [chunksMeasure_append]
    omega
  exact le_trans (handleLongWord_measure _ _ _) h2

theorem wrapStep_measure (width : Nat) (hasLines : Bool) (c : PStr)
    (cs : List PStr) :
    chunksMeasure (wrapStep width hasLines (c :: cs)).2 <
      chunksMeasure (c :: cs) := by
  rw [wrapStep_snd]
  rcases dropLeadingBlank_cases hasLines c cs with hd | hd
  · rw [hd]
    rcases htk : (greedyTake width 0 (c :: cs)).1 with _ | ⟨t0, ts⟩
    · have hwlt : width < 0 + c.length := greedyTake_nil_head htk
      have hrest : (greedyTake width 0 (c :: cs)).2 = c :: cs := by
        have h3 := greedyTake_concat width 0 (c :: cs)
        rw [htk] at h3
        simpa using h3
      rw [hrest, handleLongWord_pos (show width < c.length by omega)]
      show chunksMeasure (c.drop (if width < 1 then 1 else width) :: cs) <
        chunksMeasure (c :: cs)
      rw [chunksMeasure_cons, chunksMeasure_cons, List.length_drop]
      by_cases hw1 : width < 1
      · rw [if_pos hw1]
        omega
      · rw [if_neg hw1]
        omega
    · have h3 : chunksMeasure (c :: cs) =
          chunksMeasure (greedyTake width 0 (c :: cs)).1 +
          chunksMeasure (greedyTake width 0 (c :: cs)).2 := by
        conv_lhs => rw [← greedyTake_concat width 0 (c :: cs)]
        rw [chunksMeasure_append]
      have h4 : 1 ≤ chunksMeasure (greedyTake width 0 (c :: cs)).1 := by
        rw [htk, chunksMeasure_cons]
        omega
      have h5 := handleLongWord_measure width
        (t0 :: ts) (greedyTake width 0 (c :: cs)).2
      omega
  · rw [hd]
    have h5 := wrapTail_measure_le width cs
    rw [chunksMeasure_cons]
    omega

theorem wrapLoopFuel_mono (width : Nat) :
    ∀ (fuel : Nat) (chunks lines : List PStr) (x : PStr), x ∈ lines →
      x ∈ wrapLoopFuel width fuel chunks lines := by
  intro fuel
  induction fuel with
  | zero =>
    intro chunks lines x hx
    rcases chunks with _ | ⟨c, cs⟩
    · exact hx
    · exact hx
  | succ f ih =>
    intro chunks lines x hx
    rcases chunks with _ | ⟨c, cs⟩
    · exact hx
    · show x ∈ wrapLoopFuel width f
        (wrapStep width (!lines.isEmpty) (c :: cs)).2
        (lines ++ (wrapStep width (!lines.isEmpty) (c :: cs)).1.toList)
      exact ih _ _ x (List.mem_append_left _ hx)

theorem wrapLoop_word (width : Nat) :
    ∀ (fuel : Nat) (chunks lines : List PStr) (w : PStr),
      chunksMeasure chunks < fuel → w ∈ chunks → w ≠ [] →
      (∀ c ∈ w, isWS c = false) → w.length ≤ width →
      ∃ line ∈ wrapLoopFuel width fuel chunks lines, w <:+: line := by
  intro fuel
  induction fuel with
  | zero =>
    intro chunks lines w hfuel _ _ _ _
    exact absurd hfuel (Nat.not_lt_zero _)
  | succ f ih =>
    intro chunks lines w hfuel hmem hwne hnws hlen
    rcases chunks with _ | ⟨c, cs⟩
    · cases hmem
    · rcases @wrapStep_dichotomy width (!lines.isEmpty) (c :: cs) w
        hmem hwne hnws hlen with ⟨l, hfst, hinf⟩ | hsnd
      · refine ⟨l, ?_, hinf⟩
        show l ∈ wrapLoopFuel width f
          (wrapStep width (!lines.isEmpty) (c :: cs)).2
          (lines ++ (wrapStep width (!lines.isEmpty) (c :: cs)).1.toList)
        apply wrapLoopFuel_mono
        rw [hfst]
        exact List.mem_append_right _ (List.mem_cons_self _ _)
      · have hm := wrapStep_measure width (!lines.isEmpty) c cs
        have hcm : chunksMeasure (c :: cs) ≤ f := Nat.lt_succ_iff.mp hfuel
        obtain ⟨line, hline, hinf⟩ := ih
          (wrapStep width (!lines.isEmpty) (c :: cs)).2
          (lines ++ (wrapStep width (!lines.isEmpty) (c :: cs)).1.toList) w
          (by omega) hsnd hwne hnws hlen
        refine ⟨line, ?_, hinf⟩
        show line ∈ wrapLoopFuel width f
          (wrapStep width (!lines.isEmpty) (c :: cs)).2
          (lines ++ (wrapStep width (!lines.isEmpty) (c :: cs)).1.toList)
        exact hline

/-- Claim C7 (amended): word wrapping never splits inside a word that fits the
wrapping width and contains no hyphen: for every input text, every maximal
non-whitespace run of the input of length at most 70 that does not contain
the character `-` appears intact, as a contiguous substring, on a single line
of `textwrap.wrap(text)` output.  (Words longer than the width are broken by
`_handle_long_word`, and hyphenated words may be split at their hyphens; see
the counterexample.) -/
theorem pywrap_word_intact (text w : PStr) (hw : w ∈ pyWords text)
    (hlen : w.length ≤ 70) (hhy : '-' ∉ w) :
    ∃ line ∈ pywrap 70 text, w <:+: line := by
  have hwm : w ∈ pyWords (munge text) := by
    rw [pyWords_munge]
    exact hw
  obtain ⟨pre, post, h1, h2, h3, h4, h5⟩ :=
    pyWords_decomp (munge text).length (munge text) w (le_refl _) hwm
  have hchunks : w ∈ wordsepChunks (munge text) :=
    word_mem_chunks h1 h2 h3 hhy h4 h5
  show ∃ line ∈ wrapLoopFuel 70
    (chunksMeasure (wordsepChunks (munge text)) + 1)
    (wordsepChunks (munge text)) [], w <:+: line
  exact wrapLoop_word 70 _ _ [] w (Nat.lt_succ_self _) hchunks h2 h3 hlen

/-- Witness for `pywrap_word_intact`: the word "hello" of "hello world". -/
theorem pywrap_word_intact_witness :
    ∃ line ∈ pywrap 70 (("hello world").data), ("hello").data <:+: line :=
  pywrap_word_intact (("hello world").data) (("hello").data)
    (by decide) (by decide) (by decide)

set_option maxRecDepth 4000 in
/-- Counterexample to claim C7 as stated: the spec says every maximal
non-whitespace run appears intact "including words longer than the fixed
wrapping width", but Python 2.7 `textwrap.wrap` defaults to
`break_long_words=True`, so a 71-character word is split across lines at
width 70 and appears intact on no output line. -/
theorem wrap_splits_long_word_counterexample :
    List.replicate 71 'a' ∈ pyWords (List.replicate 71 'a') ∧
    ¬ ∃ line ∈ pywrap 70 (List.replicate 71 'a'),
        List.replicate 71 'a' <:+: line := by decide
